import Mathlib

set_option maxRecDepth 4000

/-!
Verification of the buffered UniProt corpus builder
(`src/00-CorpusBuilder/build_corpus.py`).

Bytes of the XML dump are modelled as `Char` values: every tag, attribute and
text fragment the program inspects is ASCII, and the program's
`decode("utf-8")` calls are the identity on that fragment, so a single
character type serves for both the byte level and the decoded-string level.
Fallible operations (`int(...)` parsing, the fatal scanner error) are modelled
with `Except Unit`.  Loops whose termination is not structural carry an
explicit fuel argument; `none` marks fuel exhaustion and the wrapper
definitions supply fuel that the theorems prove sufficient.
-/

/-- Statement `MatchAt hay pat i`: that that `pat` occurs in `hay` starting at index
`i` (fully contained, as Python's `bytes.find` requires). -/
def MatchAt (hay pat : List Char) (i : Nat) : Prop :=
  pat <+: hay.drop i

instance : ∀ hay pat i, Decidable (MatchAt hay pat i) := fun hay pat i =>
  decidable_of_iff (pat.isPrefixOf (hay.drop i) = true) List.isPrefixOf_iff_prefix

/-- Fuelled search loop behind `pyFind`. -/
def findFromAux (hay pat : List Char) : Nat → Nat → Option Nat
  | 0, _ => none
  | fuel + 1, i =>
    if i + pat.length ≤ hay.length then
      if pat.isPrefixOf (hay.drop i) then some i else findFromAux hay pat fuel (i + 1)
    else none

/-- Model of Python's `hay.find(pat, start)`: the least index `j ≥ start` at
which `pat` occurs fully inside `hay`; `none` models the return value `-1`. -/
def pyFind (hay pat : List Char) (start : Nat) : Option Nat :=
  findFromAux hay pat (hay.length + 1 - start) start

/-- Python slicing `l[a:b]`. -/
def pySlice (l : List Char) (a b : Nat) : List Char :=
  (l.drop a).take (b - a)

/-! ### The entry scanner (`populate_uniprot_corpus`, lines 93–179)

`scanPassAux` is the inner `while begin_pos > -1` loop over one loaded buffer
and `scanLoopAux` the outer `while current_position < size` loop, with the
per-record extraction replaced by collecting the raw record bytes: this is the
Entry Scanner component of the program, i.e. the exact control flow of
`populate_uniprot_corpus` in the situation where the corpus-size cap is never
reached (`nused < max_added` throughout), which is the regime the scanner
contract quantifies over.  `base` is the absolute file offset the buffer was
read from (`current_position` in the source), `fp` the file cursor (the value
`fp.tell()` would return), `counter` the count of records completed in this
buffer pass.  `Except.error ()` models the fatal
`ValueError("Buffer size is too small to get a full entry!")`. -/

def startTag : List Char := "<entry ".toList

def endTag : List Char := "</entry>".toList

def scanPassAux (buffer : List Char) (base : Nat) :
    Nat → Option Nat → Nat → Nat → List (List Char) →
    Option (Except Unit (List (List Char) × Nat))
  | _, none, fp, _, acc => some (.ok (acc, fp))
  | 0, some _, _, _, _ => none
  | fuel + 1, some bp, _fp, counter, acc =>
    match pyFind buffer endTag bp with
    | some ep =>
      if 0 < ep then
        let record := pySlice buffer bp (ep + endTag.length)
        scanPassAux buffer base fuel (pyFind buffer startTag (bp + 1))
          (base + ep + endTag.length) (counter + 1) (acc ++ [record])
      else if counter = 0 then some (.error ()) else some (.ok (acc, base + bp))
    | none => if counter = 0 then some (.error ()) else some (.ok (acc, base + bp))

def scanLoopAux (file : List Char) (B : Nat) :
    Nat → Nat → Nat → List (List Char) → Option (Except Unit (List (List Char)))
  | 0, _, _, _ => none
  | fuel + 1, stale, fp, acc =>
    if stale < file.length then
      let buffer := pySlice file fp (fp + B)
      match scanPassAux buffer fp (buffer.length + 1) (pyFind buffer startTag 0)
          (fp + buffer.length) 0 acc with
      | none => none
      | some (.error e) => some (.error e)
      | some (.ok (acc', fp')) => scanLoopAux file B fuel fp fp' acc'
    else some (.ok acc)

/-- The scanner: the sequence of raw `<entry ...>...</entry>` records that
`populate_uniprot_corpus` hands to the extractor when reading `file` with
buffer size `B`.  `some (.ok records)` is a completed scan, `some (.error ())`
the fatal buffer-too-small `ValueError`, and `none` exhaustion of the model's
fuel (which the theorems below rule out). -/
def scanEntries (file : List Char) (B : Nat) : Option (Except Unit (List (List Char))) :=
  scanLoopAux file B (file.length + 2) 0 0 []

/-! ### The record extractor and corpus assembler -/

/-- Model of `CorpusEntry` (lines 10–27): a sentence plus an ordered metadata mapping.
The constructor copies the metadata it is given (`OrderedDict(meta)`), which
the model reflects by building each entry's mapping value independently. -/
structure CorpusEntry where
  text : List Char
  meta : List (String × List Char)
deriving DecidableEq, Repr

/-- Model of the `OrderedDict` assignment `m[k] = v`: overwrite in place if the key exists,
otherwise append at the end. -/
def odSet (m : List (String × List Char)) (k : String) (v : List Char) :
    List (String × List Char) :=
  if m.any (fun kv => kv.1 == k) then m.map (fun kv => if kv.1 == k then (k, v) else kv)
  else m ++ [(k, v)]

/-- Model of `is_useful_for_corpus` (lines 30–40): the keyword filter. -/
def required_words : List (List Char) := ["anti".toList, "inhibit".toList]

def is_useful_for_corpus (text : List Char) : Bool :=
  required_words.any (fun w => (pyFind text w 0).isSome)

/-- Model of `already_in_corpus` (lines 43–48): linear-scan deduplication. -/
def already_in_corpus (text : List Char) (corpus : List CorpusEntry) : Bool :=
  corpus.any (fun entry => entry.text == text)

/-- Python whitespace, as used by `bytes.split()` and `bytes.strip()`. -/
def isPySpace (c : Char) : Bool :=
  c == ' ' || c == '\t' || c == '\n' || c == '\x0d' || c == '\x0b' || c == '\x0c'

/-- Strip characters satisfying `p` from both ends (`bytes.strip`). -/
def pyStrip (p : Char → Bool) (l : List Char) : List Char :=
  ((l.dropWhile p).reverse.dropWhile p).reverse

/-- Decimal value of a digit run. -/
def digitsVal (l : List Char) : Nat :=
  l.foldl (fun acc d => 10 * acc + (d.toNat - '0'.toNat)) 0

/-- Model of Python `int(bytes)`: optional surrounding whitespace, an optional
sign, then a non-empty run of ASCII digits; anything else raises `ValueError`.
(PEP 515 underscore grouping between digits, which CPython would also accept,
is not modelled; no claim depends on it.) -/
def pyIntCore : List Char → Except Unit Int
  | [] => .error ()
  | c :: rest =>
    if c = '-' then
      if rest = [] then .error ()
      else if rest.all (fun d => d.isDigit) then .ok (-(digitsVal rest : Int))
      else .error ()
    else if c = '+' then
      if rest = [] then .error ()
      else if rest.all (fun d => d.isDigit) then .ok ((digitsVal rest : Int))
      else .error ()
    else
      if (c :: rest).all (fun d => d.isDigit) then .ok ((digitsVal (c :: rest) : Int))
      else .error ()

def pyInt (l : List Char) : Except Unit Int :=
  pyIntCore (pyStrip isPySpace l)

def seqTag : List Char := "<sequence".toList

def lengthAttr : List Char := "length=".toList

/-- The token pipeline of lines 62–65: `xml_entry[start_pos:].split()[0]`,
`name, value = attribute.split(b"=")`, `int(value.strip(b'"'))`.
`Except.error ()` is any of the `ValueError`s those three lines can raise. -/
def parseLengthToken (tail : List Char) : Except Unit Int :=
  match tail.dropWhile isPySpace with
  | [] => .error ()
  | c :: rest =>
    let attrTok := (c :: rest).takeWhile (fun ch => ! isPySpace ch)
    match attrTok.splitOn '=' with
    | [_, value] => pyInt (pyStrip (fun ch => ch == '"') value)
    | _ => .error ()

/-- Model of `get_uniprot_entry_length` (lines 51–65). -/
def get_uniprot_entry_length (xml_entry : List Char) : Except Unit Int :=
  match pyFind xml_entry seqTag 0 with
  | none => .ok (-1)
  | some start_pos =>
    match pyFind xml_entry lengthAttr start_pos with
    | none => .ok (-1)
    | some attr_pos => parseLengthToken (xml_entry.drop attr_pos)

/-! ### The regular-expression field extraction

The three patterns of lines 83–87 all have the shape
`<tag[^>]*>(?P<g>[^<]+)</tag>`.  Both character classes are greedy but can
never cross the character that follows them in the pattern, so matching is
deterministic: after the literal open tag, `[^>]*` runs to the first `>`
(which must exist), and `[^<]+` runs to the first `<`, which must start the
literal close tag and must be preceded by at least one character. -/

def matchTagAt (openLit closeLit s : List Char) (i : Nat) : Option (List Char × Nat) :=
  if openLit.isPrefixOf (s.drop i) then
    let gtPos := i + openLit.length + ((s.drop (i + openLit.length)).takeWhile (fun c => c ≠ '>')).length
    if gtPos < s.length then
      let group := (s.drop (gtPos + 1)).takeWhile (fun c => c ≠ '<')
      if group = [] then none
      else if closeLit.isPrefixOf (s.drop (gtPos + 1 + group.length)) then
        some (group, gtPos + 1 + group.length + closeLit.length)
      else none
    else none
  else none

/-- Model of `re.finditer`: left-to-right, non-overlapping; collects the captured
group of each match. -/
def finditerAux (openLit closeLit s : List Char) : Nat → Nat → List (List Char)
  | 0, _ => []
  | fuel + 1, i =>
    if i < s.length then
      match matchTagAt openLit closeLit s i with
      | some (g, e) => g :: finditerAux openLit closeLit s fuel e
      | none => finditerAux openLit closeLit s fuel (i + 1)
    else []

def finditer (openLit closeLit s : List Char) : List (List Char) :=
  finditerAux openLit closeLit s (s.length + 1) 0

def accessionOpen : List Char := "<accession".toList

def accessionClose : List Char := "</accession>".toList

def textOpen : List Char := "<text".toList

def textClose : List Char := "</text>".toList

def titleOpen : List Char := "<title".toList

def titleClose : List Char := "</title>".toList

/-- The accession ids of a record, in match order, already
`.strip().decode("utf-8")`-ed (line 133). -/
def accessionIds (xml : List Char) : List (List Char) :=
  (finditer accessionOpen accessionClose xml).map (fun g => pyStrip isPySpace g)

/-- The base metadata of a record (lines 128–133): `source`, then `ID`
re-assigned once per accession match, so a non-empty match list leaves the
last match's id in the mapping. -/
def recordMeta (xml : List Char) : List (String × List Char) :=
  (accessionIds xml).foldl (fun m v => odSet m "ID" v) [("source", "Uniprot".toList)]

/-- Python `text.split(". ")` (fuelled scan; fuel = length of the remainder
suffices because each step consumes at least one character). -/
def splitSeqAux (sep : List Char) : Nat → List (List Char) → List Char → List Char →
    List (List Char)
  | 0, accParts, cur, rest => accParts ++ [cur ++ rest]
  | fuel + 1, accParts, cur, rest =>
    if sep.isPrefixOf rest then
      splitSeqAux sep fuel (accParts ++ [cur]) [] (rest.drop sep.length)
    else
      match rest with
      | [] => accParts ++ [cur]
      | c :: rs => splitSeqAux sep fuel accParts (cur ++ [c]) rs

def pySplitSeq (sep l : List Char) : List (List Char) :=
  splitSeqAux sep (l.length + 1) [] [] l

def sentenceSep : List Char := ". ".toList

/-- Mutable state threaded through the run: the corpus list plus the
`nused` / `ntotal` counters. -/
structure PState where
  corpus : List CorpusEntry
  nused : Nat
  ntotal : Nat
deriving DecidableEq, Repr

/-- Lines 139–150 (and 155–166): the `for text in sentences` loop of one
matched text block.  `break` on exceeding the cap leaves the remaining
sentences unprocessed but keeps the incremented counters. -/
def addSentences (maxAdded : Nat) (meta : List (String × List Char)) (typeVal : List Char) :
    List (List Char) → PState → PState
  | [], st => st
  | text :: rest, st =>
    if is_useful_for_corpus text && ! already_in_corpus text st.corpus then
      if maxAdded < st.nused + 1 then ⟨st.corpus, st.nused + 1, st.ntotal + 1⟩
      else
        addSentences maxAdded meta typeVal rest
          ⟨st.corpus ++ [⟨text, odSet meta "type" typeVal⟩], st.nused + 1, st.ntotal + 1⟩
    else addSentences maxAdded meta typeVal rest ⟨st.corpus, st.nused, st.ntotal + 1⟩

/-- Lines 125–166: per-record length gate, metadata, comment pass, title
pass.  The propagated `Except.error` is the `ValueError` that
`get_uniprot_entry_length` raises on a malformed length attribute; nothing in
`populate_uniprot_corpus` catches it. -/
def processEntry (maxAdded : Nat) (maxLength : Int) (xml : List Char) (st : PState) :
    Except Unit PState :=
  match get_uniprot_entry_length xml with
  | .error e => .error e
  | .ok len =>
    if len < maxLength then
      .ok ((finditer titleOpen titleClose xml).foldl
        (fun s g =>
          addSentences maxAdded (recordMeta xml) "article".toList (pySplitSeq sentenceSep g) s)
        ((finditer textOpen textClose xml).foldl
          (fun s g =>
            addSentences maxAdded (recordMeta xml) "comment".toList (pySplitSeq sentenceSep g) s)
          st))
    else .ok st

/-- The inner buffer loop of `populate_uniprot_corpus` with extraction, cap
checks included (lines 117–179). -/
def popPassAux (maxAdded : Nat) (maxLength : Int) (buffer : List Char) (base : Nat) :
    Nat → Option Nat → Nat → Nat → PState → Option (Except Unit (PState × Nat))
  | _, none, fp, _, st => some (.ok (st, fp))
  | 0, some _, _, _, _ => none
  | fuel + 1, some bp, _fp, counter, st =>
    match pyFind buffer endTag bp with
    | some ep =>
      if 0 < ep then
        let xml := pySlice buffer bp (ep + endTag.length)
        match processEntry maxAdded maxLength xml st with
        | .error e => some (.error e)
        | .ok st' =>
          let fp' := base + ep + endTag.length
          if maxAdded ≤ st'.nused then some (.ok (st', fp'))
          else popPassAux maxAdded maxLength buffer base fuel
            (pyFind buffer startTag (bp + 1)) fp' (counter + 1) st'
      else if counter = 0 then some (.error ()) else some (.ok (st, base + bp))
    | none => if counter = 0 then some (.error ()) else some (.ok (st, base + bp))

/-- The outer read loop of `populate_uniprot_corpus` (lines 97–179). -/
def popLoopAux (maxAdded : Nat) (maxLength : Int) (file : List Char) (B : Nat) :
    Nat → Nat → Nat → PState → Option (Except Unit PState)
  | 0, _, _, _ => none
  | fuel + 1, stale, fp, st =>
    if stale < file.length then
      if maxAdded ≤ st.nused then some (.ok st)
      else
        let buffer := pySlice file fp (fp + B)
        match popPassAux maxAdded maxLength buffer fp (buffer.length + 1)
            (pyFind buffer startTag 0) (fp + buffer.length) 0 st with
        | none => none
        | some (.error e) => some (.error e)
        | some (.ok (st', fp')) => popLoopAux maxAdded maxLength file B fuel fp fp' st'
    else some (.ok st)

/-- Model of `populate_uniprot_corpus` (lines 68–187), with the file contents, the
buffer size (a constant `int(10e6)` in the source) and the fuel made
explicit.  `some (.ok c)` is the returned corpus; `some (.error ())` an
uncaught `ValueError` (fatal buffer-too-small or malformed length attribute);
`none` fuel exhaustion of the model. -/
def populate_uniprot_corpus (corpus : List CorpusEntry) (file : List Char)
    (maxAdded : Nat) (maxLength : Int) (B : Nat) :
    Option (Except Unit (List CorpusEntry)) :=
  (popLoopAux maxAdded maxLength file B (file.length + 2) 0 0
      ⟨corpus, 0, 0⟩).map (Except.map PState.corpus)

/-- The metadata a `CorpusEntry` produced from record `xml` in the pass with
`type` value `tv` must carry: always `source`, the `ID` key exactly when the
record has at least one accession match (and then the last match's id), and
`tv` under `type`. -/
def EntryMetaOk (xml tv : List Char) (e : CorpusEntry) : Prop :=
  (accessionIds xml = [] ∧ e.meta = [("source", "Uniprot".toList), ("type", tv)]) ∨
  (accessionIds xml ≠ [] ∧
    e.meta = [("source", "Uniprot".toList), ("ID", (accessionIds xml).getLastD []),
      ("type", tv)])

/-- Record-independent weakening of `EntryMetaOk`: what every entry ever
appended by a run of `populate_uniprot_corpus` looks like. -/
def GoodMeta (e : CorpusEntry) : Prop :=
  ∃ t, (t = "comment".toList ∨ t = "article".toList) ∧
    (e.meta = [("source", "Uniprot".toList), ("type", t)] ∨
      ∃ v, e.meta = [("source", "Uniprot".toList), ("ID", v), ("type", t)])

/-! ### Concrete demonstration inputs -/

def capDemoEntry : List Char :=
  "<entry ><comment><text>anti one. anti two. anti three. anti four</text></comment></entry>".toList

def capDemoFile : List Char := "<uniprot>".toList ++ capDemoEntry ++ "</uniprot>".toList

def capDemoCorpus : List CorpusEntry :=
  [⟨"anti one".toList, [("source", "Uniprot".toList), ("type", "comment".toList)]⟩,
   ⟨"anti two".toList, [("source", "Uniprot".toList), ("type", "comment".toList)]⟩]

def lenDemo50 : List Char :=
  "<entry ><sequence length=\"50\" >M</sequence><comment><text>anti alpha.</text></comment></entry>".toList

def lenDemo150 : List Char :=
  "<entry ><sequence length=\"150\" >M</sequence><comment><text>anti beta.</text></comment></entry>".toList

def lenDemoNone : List Char :=
  "<entry ><comment><text>anti gamma.</text></comment></entry>".toList

def lenDemoFile50 : List Char := "<uniprot>".toList ++ lenDemo50 ++ "</uniprot>".toList

def lenDemoFile150 : List Char := "<uniprot>".toList ++ lenDemo150 ++ "</uniprot>".toList

def lenDemoFileNone : List Char := "<uniprot>".toList ++ lenDemoNone ++ "</uniprot>".toList

def accDemoEntry : List Char :=
  ("<entry ><accession>A00001</accession><accession>B00002</accession>" ++
    "<sequence length=\"30\" >MK</sequence>" ++
    "<comment><text>Strongly inhibits growth.</text></comment></entry>").toList

def accDemoFile : List Char := "<uniprot>".toList ++ accDemoEntry ++ "</uniprot>".toList

def accDemoResult : CorpusEntry :=
  ⟨"Strongly inhibits growth.".toList,
   [("source", "Uniprot".toList), ("ID", "B00002".toList), ("type", "comment".toList)]⟩

def dupDemoEntry : List Char :=
  "<entry ><comment><text>Shows anti-viral activity.</text></comment></entry>".toList

def dupDemoFile : List Char :=
  "<uniprot>".toList ++ dupDemoEntry ++ dupDemoEntry ++ "</uniprot>".toList

def dupDemoCorpus : List CorpusEntry :=
  [⟨"Shows anti-viral activity.".toList,
    [("source", "Uniprot".toList), ("type", "comment".toList)]⟩]

def e2eDemoEntry1 : List Char :=
  ("<entry ><sequence length=\"30\" >MK</sequence>" ++
    "<comment><text>Shows anti-viral activity. Unrelated note.</text></comment></entry>").toList

def e2eDemoEntry2 : List Char :=
  ("<entry ><sequence length=\"200\" >MKMK</sequence>" ++
    "<comment><text>Shows anti-viral activity.</text></comment></entry>").toList

def e2eDemoFile : List Char :=
  "<?xml version=\"1.0\"?><uniprot>".toList ++ e2eDemoEntry1 ++ e2eDemoEntry2 ++
    "</uniprot>".toList

def badLenDemoEntry : List Char :=
  "<entry ><sequence length=\"abc\" >MK</sequence><comment><text>anti x.</text></comment></entry>".toList

def badLenDemoFile : List Char := "<uniprot>".toList ++ badLenDemoEntry ++ "</uniprot>".toList

def noSpaceLenDemo : List Char :=
  "<entry ><sequence length=\"42\">MK</sequence></entry>".toList

def withSpaceLenDemo : List Char :=
  "<entry ><sequence length=\"42\" >MK</sequence></entry>".toList

/-! ### Valid-file layouts for the scanner -/

/-- Ordering of record spans: each record `[s, e)` starts at or after the
previous end `p` and is at least 15 bytes long (it contains both the 7-byte
start tag and the 8-byte end tag). -/
def RecOrder : Nat → List (Nat × Nat) → Prop
  | _, [] => True
  | p, (s, e) :: tl => p ≤ s ∧ s + 15 ≤ e ∧ RecOrder e tl

/-- Buffer-size condition: each record, together with the gap separating it
from the previous record (or from the start of file), fits in `B` bytes. -/
def GapFits (B : Nat) : Nat → List (Nat × Nat) → Prop
  | _, [] => True
  | p, (_s, e) :: tl => e ≤ p + B ∧ GapFits B e tl

instance RecOrder.dec : ∀ (p : Nat) (l : List (Nat × Nat)), Decidable (RecOrder p l)
  | _, [] => .isTrue trivial
  | p, (s, e) :: tl =>
    have : Decidable (RecOrder e tl) := RecOrder.dec e tl
    inferInstanceAs (Decidable (p ≤ s ∧ s + 15 ≤ e ∧ RecOrder e tl))

instance GapFits.dec : ∀ (B p : Nat) (l : List (Nat × Nat)), Decidable (GapFits B p l)
  | _, _, [] => .isTrue trivial
  | B, p, (_s, e) :: tl =>
    have : Decidable (GapFits B e tl) := GapFits.dec B e tl
    inferInstanceAs (Decidable (e ≤ p + B ∧ GapFits B e tl))

/-- Predicate `ScanLayout file recs`: `recs` lists the offset spans `[s, e)` of the
top-level `<entry ...>...</entry>` records of `file`, in file order;
occurrences of the start tag in the file are exactly the record starts, and
occurrences of the end tag exactly the record ends.  This is the shape of a
valid input file for the scanner. -/
def ScanLayout (file : List Char) (recs : List (Nat × Nat)) : Prop :=
  RecOrder 0 recs ∧
  (∀ r ∈ recs, r.2 ≤ file.length) ∧
  (∀ j, MatchAt file startTag j ↔ ∃ r ∈ recs, r.1 = j) ∧
  (∀ j, MatchAt file endTag j ↔ ∃ r ∈ recs, r.2 = j + 8)

/-- Localized completeness: from offset `p` on, the tag occurrences of the
file are exactly those of the remaining records `rest`. -/
def TagsFrom (file : List Char) (p : Nat) (rest : List (Nat × Nat)) : Prop :=
  (∀ j, p ≤ j → (MatchAt file startTag j ↔ ∃ r ∈ rest, r.1 = j)) ∧
  (∀ j, p ≤ j → (MatchAt file endTag j ↔ ∃ r ∈ rest, r.2 = j + 8))

def scanDemoRecord : List Char :=
  "<entry >0123456789012345678901234567890123456789</entry>".toList

def scanDemoFile : List Char :=
  "<uniprot>".toList ++ scanDemoRecord ++ "</uniprot>".toList

theorem MatchAt.add_length_le {hay pat : List Char} {i : Nat}
    (h : MatchAt hay pat i) (hp : pat ≠ []) : i + pat.length ≤ hay.length := by
  have hlen := h.length_le
  simp only [List.length_drop] at hlen
  have hpos : 0 < pat.length := List.length_pos.mpr hp
  omega

theorem findFromAux_some {hay pat : List Char} :
    ∀ {fuel i j : Nat}, findFromAux hay pat fuel i = some j →
      i ≤ j ∧ MatchAt hay pat j ∧ j + pat.length ≤ hay.length ∧
        ∀ m, i ≤ m → m < j → ¬ MatchAt hay pat m := by
  intro fuel
  induction fuel with
  | zero => intro i j h; simp [findFromAux] at h
  | succ fuel ih =>
    intro i j h
    by_cases hfit : i + pat.length ≤ hay.length
    · simp only [findFromAux, if_pos hfit] at h
      by_cases hpref : pat.isPrefixOf (hay.drop i) = true
      · simp only [if_pos hpref, Option.some.injEq] at h
        subst h
        refine ⟨Nat.le_refl _, List.isPrefixOf_iff_prefix.mp hpref, hfit, ?_⟩
        intro m h1 h2; omega
      · simp only [if_neg hpref] at h
        obtain ⟨h1, h2, h3, h4⟩ := ih h
        refine ⟨by omega, h2, h3, ?_⟩
        intro m hm1 hm2
        rcases Nat.eq_or_lt_of_le hm1 with rfl | hm1'
        · intro hc
          exact hpref (List.isPrefixOf_iff_prefix.mpr hc)
        · exact h4 m hm1' hm2
    · simp [findFromAux, if_neg hfit] at h

theorem findFromAux_succ (hay pat : List Char) (fuel i : Nat) :
    findFromAux hay pat (fuel + 1) i =
      if i + pat.length ≤ hay.length then
        if pat.isPrefixOf (hay.drop i) then some i else findFromAux hay pat fuel (i + 1)
      else none := rfl

theorem findFromAux_complete {hay pat : List Char} :
    ∀ fuel i j : Nat, i ≤ j → MatchAt hay pat j → j + pat.length ≤ hay.length →
      hay.length + 1 - i ≤ fuel → ∃ k, findFromAux hay pat fuel i = some k ∧ k ≤ j := by
  intro fuel
  induction fuel with
  | zero =>
    intro i j hij hm hfit hfuel
    omega
  | succ fuel ih =>
    intro i j hij hm hfit hfuel
    have hfiti : i + pat.length ≤ hay.length := by omega
    rw [findFromAux_succ, if_pos hfiti]
    by_cases hpref : pat.isPrefixOf (hay.drop i) = true
    · exact ⟨i, by rw [if_pos hpref], hij⟩
    · have hne : i ≠ j := by
        intro h; subst h
        exact hpref (List.isPrefixOf_iff_prefix.mpr hm)
      obtain ⟨k, hk, hkj⟩ := ih (i + 1) j (by omega) hm hfit (by omega)
      exact ⟨k, by rw [if_neg hpref]; exact hk, hkj⟩

theorem pyFind_some {hay pat : List Char} {start j : Nat}
    (h : pyFind hay pat start = some j) :
    start ≤ j ∧ MatchAt hay pat j ∧ j + pat.length ≤ hay.length ∧
      ∀ m, start ≤ m → m < j → ¬ MatchAt hay pat m :=
  findFromAux_some h

theorem pyFind_none {hay pat : List Char} {start : Nat}
    (h : pyFind hay pat start = none) :
    ∀ j, start ≤ j → j + pat.length ≤ hay.length → ¬ MatchAt hay pat j := by
  intro j hj hfit hm
  obtain ⟨k, hk, -⟩ :=
    findFromAux_complete (hay.length + 1 - start) start j hj hm hfit (Nat.le_refl _)
  rw [pyFind] at h
  rw [h] at hk
  exact Option.noConfusion hk

theorem pyFind_eq_some {hay pat : List Char} {start j : Nat}
    (hj : start ≤ j) (hm : MatchAt hay pat j) (hfit : j + pat.length ≤ hay.length)
    (hleast : ∀ m, start ≤ m → m < j → ¬ MatchAt hay pat m) :
    pyFind hay pat start = some j := by
  obtain ⟨k, hk, hkj⟩ :=
    findFromAux_complete (hay.length + 1 - start) start j hj hm hfit (Nat.le_refl _)
  obtain ⟨h1, h2, -, -⟩ := findFromAux_some hk
  rcases Nat.eq_or_lt_of_le hkj with rfl | hlt
  · exact hk
  · exact absurd h2 (hleast k h1 hlt)

theorem pyFind_eq_none {hay pat : List Char} {start : Nat}
    (h : ∀ j, start ≤ j → j + pat.length ≤ hay.length → ¬ MatchAt hay pat j) :
    pyFind hay pat start = none := by
  cases hfind : pyFind hay pat start with
  | none => rfl
  | some j =>
    obtain ⟨h1, h2, h3, -⟩ := pyFind_some hfind
    exact absurd h2 (h j h1 h3)

theorem pySlice_length (l : List Char) (a b : Nat) :
    (pySlice l a b).length = min (b - a) (l.length - a) := by
  simp [pySlice]

theorem MatchAt_pySlice {l pat : List Char} {a b r : Nat} :
    MatchAt (pySlice l a b) pat r ↔ MatchAt l pat (a + r) ∧ pat.length ≤ b - a - r := by
  unfold MatchAt pySlice
  rw [List.drop_take, List.drop_drop, List.prefix_take_iff]

theorem pySlice_pySlice_of_le {l : List Char} {a B c d : Nat} (h : d ≤ B) :
    pySlice (pySlice l a (a + B)) c d = pySlice l (a + c) (a + d) := by
  unfold pySlice
  rw [List.drop_take, List.drop_drop]
  rw [List.take_take]
  have h1 : a + B - a = B := by omega
  have h2 : a + d - (a + c) = d - c := by omega
  rw [h1, h2]
  congr 1
  omega

/-! ### Assembler invariants -/

theorem already_in_corpus_eq_false {text : List Char} {corpus : List CorpusEntry} :
    already_in_corpus text corpus = false ↔ text ∉ corpus.map CorpusEntry.text := by
  constructor
  · intro h hm
    rw [List.mem_map] at hm
    obtain ⟨e, he, hte⟩ := hm
    rw [already_in_corpus, List.any_eq_false] at h
    exact h e he (by simp [hte])
  · intro h
    rw [already_in_corpus, List.any_eq_false]
    intro e he hc
    rw [beq_iff_eq] at hc
    exact h (List.mem_map.mpr ⟨e, he, hc⟩)

theorem foldl_pres {α : Type} {f : PState → α → PState} {P : PState → Prop}
    (hf : ∀ st a, P st → P (f st a)) :
    ∀ (l : List α) (st : PState), P st → P (l.foldl f st)
  | [], _, h => h
  | a :: l, st, h => foldl_pres hf l (f st a) (hf st a h)

theorem addSentences_corpus {k : Nat} {meta : List (String × List Char)} {tv : List Char} :
    ∀ (sents : List (List Char)) (st : PState),
      ∃ new, (addSentences k meta tv sents st).corpus = st.corpus ++ new ∧
        ∀ e ∈ new, e.meta = odSet meta "type" tv := by
  intro sents
  induction sents with
  | nil => intro st; exact ⟨[], by simp [addSentences], by simp⟩
  | cons t rest ih =>
    intro st
    by_cases hg : (is_useful_for_corpus t && ! already_in_corpus t st.corpus) = true
    · by_cases hc : k < st.nused + 1
      · refine ⟨[], ?_, by simp⟩
        simp only [addSentences, if_pos hg, if_pos hc]
        simp
      · obtain ⟨new, h1, h2⟩ := ih ⟨st.corpus ++ [⟨t, odSet meta "type" tv⟩],
          st.nused + 1, st.ntotal + 1⟩
        refine ⟨⟨t, odSet meta "type" tv⟩ :: new, ?_, ?_⟩
        · simp only [addSentences, if_pos hg, if_neg hc]
          rw [h1]
          simp
        · intro e he
          rcases List.mem_cons.mp he with rfl | he'
          · rfl
          · exact h2 e he'
    · obtain ⟨new, h1, h2⟩ := ih ⟨st.corpus, st.nused, st.ntotal + 1⟩
      refine ⟨new, ?_, h2⟩
      simp only [addSentences, if_neg hg]
      exact h1

theorem addSentences_nused_le {k : Nat} {meta : List (String × List Char)} {tv : List Char} :
    ∀ (sents : List (List Char)) (st : PState),
      st.nused ≤ (addSentences k meta tv sents st).nused := by
  intro sents
  induction sents with
  | nil => intro st; simp [addSentences]
  | cons t rest ih =>
    intro st
    by_cases hg : (is_useful_for_corpus t && ! already_in_corpus t st.corpus) = true
    · by_cases hc : k < st.nused + 1
      · simp only [addSentences, if_pos hg, if_pos hc]
        exact Nat.le_succ st.nused
      · simp only [addSentences, if_pos hg, if_neg hc]
        exact Nat.le_trans (Nat.le_succ st.nused)
          (ih ⟨st.corpus ++ [⟨t, odSet meta "type" tv⟩], st.nused + 1, st.ntotal + 1⟩)
    · simp only [addSentences, if_neg hg]
      exact ih ⟨st.corpus, st.nused, st.ntotal + 1⟩

theorem addSentences_card {k c0 : Nat} {meta : List (String × List Char)} {tv : List Char} :
    ∀ (sents : List (List Char)) (st : PState),
      st.corpus.length ≤ c0 + min st.nused k →
      (addSentences k meta tv sents st).corpus.length ≤
        c0 + min (addSentences k meta tv sents st).nused k := by
  intro sents
  induction sents with
  | nil => intro st h; simpa [addSentences] using h
  | cons t rest ih =>
    intro st h
    by_cases hg : (is_useful_for_corpus t && ! already_in_corpus t st.corpus) = true
    · by_cases hc : k < st.nused + 1
      · simp only [addSentences, if_pos hg, if_pos hc]
        show st.corpus.length ≤ c0 + min (st.nused + 1) k
        omega
      · simp only [addSentences, if_pos hg, if_neg hc]
        apply ih
        show (st.corpus ++ [(⟨t, odSet meta "type" tv⟩ : CorpusEntry)]).length ≤
          c0 + min (st.nused + 1) k
        rw [List.length_append]
        simp only [List.length_cons, List.length_nil]
        omega
    · simp only [addSentences, if_neg hg]
      apply ih
      exact h

theorem addSentences_nodup {k : Nat} {meta : List (String × List Char)} {tv : List Char} :
    ∀ (sents : List (List Char)) (st : PState),
      (st.corpus.map CorpusEntry.text).Nodup →
      ((addSentences k meta tv sents st).corpus.map CorpusEntry.text).Nodup := by
  intro sents
  induction sents with
  | nil => intro st h; simpa [addSentences] using h
  | cons t rest ih =>
    intro st h
    by_cases hg : (is_useful_for_corpus t && ! already_in_corpus t st.corpus) = true
    · by_cases hc : k < st.nused + 1
      · simp only [addSentences, if_pos hg, if_pos hc]
        exact h
      · simp only [addSentences, if_pos hg, if_neg hc]
        apply ih
        show ((st.corpus ++ [(⟨t, odSet meta "type" tv⟩ : CorpusEntry)]).map CorpusEntry.text).Nodup
        have hnot : t ∉ st.corpus.map CorpusEntry.text := by
          rw [Bool.and_eq_true, Bool.not_eq_true'] at hg
          exact already_in_corpus_eq_false.mp hg.2
        rw [List.map_append, List.nodup_append]
        refine ⟨h, by simp, ?_⟩
        intro x hx hx'
        simp only [List.map_cons, List.map_nil, List.mem_singleton] at hx'
        subst hx'
        exact hnot hx
    · simp only [addSentences, if_neg hg]
      apply ih
      exact h

theorem addSentences_frozen {k : Nat} {meta : List (String × List Char)} {tv : List Char} :
    ∀ (sents : List (List Char)) (st : PState), k ≤ st.nused →
      (addSentences k meta tv sents st).corpus = st.corpus ∧
        k ≤ (addSentences k meta tv sents st).nused := by
  intro sents
  induction sents with
  | nil => intro st h; exact ⟨by simp [addSentences], by simpa [addSentences] using h⟩
  | cons t rest ih =>
    intro st h
    by_cases hg : (is_useful_for_corpus t && ! already_in_corpus t st.corpus) = true
    · have hc : k < st.nused + 1 := by omega
      refine ⟨?_, ?_⟩
      · simp [addSentences, hg, hc]
      · simp only [addSentences, if_pos hg, if_pos hc]
        show k ≤ st.nused + 1
        omega
    · simp only [addSentences, if_neg hg]
      exact ih ⟨st.corpus, st.nused, st.ntotal + 1⟩ h

/-! ### Metadata shapes -/

theorem odSet_base_type (tv : List Char) :
    odSet [("source", "Uniprot".toList)] "type" tv =
      [("source", "Uniprot".toList), ("type", tv)] := rfl

theorem odSet_id_type (v tv : List Char) :
    odSet [("source", "Uniprot".toList), ("ID", v)] "type" tv =
      [("source", "Uniprot".toList), ("ID", v), ("type", tv)] := rfl

theorem odSet_base_id (v : List Char) :
    odSet [("source", "Uniprot".toList)] "ID" v =
      [("source", "Uniprot".toList), ("ID", v)] := rfl

theorem odSet_id_id (v w : List Char) :
    odSet [("source", "Uniprot".toList), ("ID", v)] "ID" w =
      [("source", "Uniprot".toList), ("ID", w)] := rfl

theorem foldl_odSet_id : ∀ (l : List (List Char)) (v : List Char),
    l.foldl (fun m w => odSet m "ID" w) [("source", "Uniprot".toList), ("ID", v)] =
      [("source", "Uniprot".toList), ("ID", l.getLastD v)]
  | [], _ => rfl
  | a :: l, v => by
    rw [List.foldl_cons, odSet_id_id, foldl_odSet_id l a, List.getLastD_cons]

theorem recordMeta_eq_of_nil {xml : List Char} (h : accessionIds xml = []) :
    recordMeta xml = [("source", "Uniprot".toList)] := by
  rw [recordMeta, h]
  rfl

theorem recordMeta_eq_of_cons {xml : List Char} {a : List Char} {as : List (List Char)}
    (h : accessionIds xml = a :: as) :
    recordMeta xml =
      [("source", "Uniprot".toList), ("ID", (accessionIds xml).getLastD [])] := by
  rw [recordMeta, h, List.foldl_cons, odSet_base_id, foldl_odSet_id, List.getLastD_cons]

theorem entryMetaOk_of_odSet {xml tv : List Char} {e : CorpusEntry}
    (h : e.meta = odSet (recordMeta xml) "type" tv) : EntryMetaOk xml tv e := by
  cases hids : accessionIds xml with
  | nil =>
    left
    exact ⟨hids, by rw [h, recordMeta_eq_of_nil hids, odSet_base_type]⟩
  | cons a as =>
    right
    refine ⟨by simp [hids], ?_⟩
    rw [h, recordMeta_eq_of_cons hids, odSet_id_type]

theorem goodMeta_of_entryMetaOk {xml tv : List Char} {e : CorpusEntry}
    (htv : tv = "comment".toList ∨ tv = "article".toList)
    (h : EntryMetaOk xml tv e) : GoodMeta e := by
  rcases h with ⟨-, hm⟩ | ⟨-, hm⟩
  · exact ⟨tv, htv, Or.inl hm⟩
  · exact ⟨tv, htv, Or.inr ⟨_, hm⟩⟩

/-! ### `processEntry` characterization -/

theorem processEntry_ok_eq {k : Nat} {L : Int} {xml : List Char} {st st' : PState}
    (h : processEntry k L xml st = .ok st') :
    st' = st ∨
      st' = (finditer titleOpen titleClose xml).foldl
        (fun s g =>
          addSentences k (recordMeta xml) "article".toList (pySplitSeq sentenceSep g) s)
        ((finditer textOpen textClose xml).foldl
          (fun s g =>
            addSentences k (recordMeta xml) "comment".toList (pySplitSeq sentenceSep g) s)
          st) := by
  unfold processEntry at h
  split at h
  · exact Except.noConfusion h
  · split at h
    · right
      exact (Except.ok.inj h).symm
    · left
      exact (Except.ok.inj h).symm

theorem processEntry_excluded {k : Nat} {L v : Int} {xml : List Char} (st : PState)
    (hlen : get_uniprot_entry_length xml = .ok v) (hge : L ≤ v) :
    processEntry k L xml st = .ok st := by
  unfold processEntry
  simp only [hlen]
  rw [if_neg (Int.not_lt.mpr hge)]

theorem processEntry_included {k : Nat} {L v : Int} {xml : List Char} (st : PState)
    (hlen : get_uniprot_entry_length xml = .ok v) (hlt : v < L) :
    processEntry k L xml st =
      .ok ((finditer titleOpen titleClose xml).foldl
        (fun s g =>
          addSentences k (recordMeta xml) "article".toList (pySplitSeq sentenceSep g) s)
        ((finditer textOpen textClose xml).foldl
          (fun s g =>
            addSentences k (recordMeta xml) "comment".toList (pySplitSeq sentenceSep g) s)
          st)) := by
  unfold processEntry
  simp only [hlen]
  rw [if_pos hlt]

theorem processEntry_error {k : Nat} {L : Int} {xml : List Char} (st : PState)
    (hlen : get_uniprot_entry_length xml = .error ()) :
    processEntry k L xml st = .error () := by
  unfold processEntry
  simp only [hlen]

theorem processEntry_corpus {k : Nat} {L : Int} {xml : List Char} {st st' : PState}
    (h : processEntry k L xml st = .ok st') :
    ∃ nc na, st'.corpus = st.corpus ++ nc ++ na ∧
      (∀ e ∈ nc, EntryMetaOk xml "comment".toList e) ∧
      (∀ e ∈ na, EntryMetaOk xml "article".toList e) := by
  rcases processEntry_ok_eq h with rfl | hEq
  · exact ⟨[], [], by simp, by simp, by simp⟩
  · have hcom : ∃ new,
        ((finditer textOpen textClose xml).foldl
          (fun s g =>
            addSentences k (recordMeta xml) "comment".toList (pySplitSeq sentenceSep g) s)
          st).corpus = st.corpus ++ new ∧
          ∀ e ∈ new, e.meta = odSet (recordMeta xml) "type" "comment".toList := by
      apply foldl_pres (P := fun s => ∃ new, s.corpus = st.corpus ++ new ∧
        ∀ e ∈ new, e.meta = odSet (recordMeta xml) "type" "comment".toList)
      · intro s g ⟨new, h1, h2⟩
        obtain ⟨new2, h3, h4⟩ := addSentences_corpus (pySplitSeq sentenceSep g) s
        refine ⟨new ++ new2, by rw [h3, h1, List.append_assoc], ?_⟩
        intro e he
        rcases List.mem_append.mp he with he' | he'
        · exact h2 e he'
        · exact h4 e he'
      · exact ⟨[], by simp, by simp⟩
    obtain ⟨nc, hnc1, hnc2⟩ := hcom
    have hart : ∃ new, st'.corpus =
        (((finditer textOpen textClose xml).foldl
          (fun s g =>
            addSentences k (recordMeta xml) "comment".toList (pySplitSeq sentenceSep g) s)
          st).corpus) ++ new ∧
          ∀ e ∈ new, e.meta = odSet (recordMeta xml) "type" "article".toList := by
      rw [hEq]
      apply foldl_pres (P := fun s => ∃ new, s.corpus =
        (((finditer textOpen textClose xml).foldl
          (fun s2 g =>
            addSentences k (recordMeta xml) "comment".toList (pySplitSeq sentenceSep g) s2)
          st).corpus) ++ new ∧
        ∀ e ∈ new, e.meta = odSet (recordMeta xml) "type" "article".toList)
      · intro s g ⟨new, h1, h2⟩
        obtain ⟨new2, h3, h4⟩ := addSentences_corpus (pySplitSeq sentenceSep g) s
        refine ⟨new ++ new2, by rw [h3, h1, List.append_assoc], ?_⟩
        intro e he
        rcases List.mem_append.mp he with he' | he'
        · exact h2 e he'
        · exact h4 e he'
      · exact ⟨[], by simp, by simp⟩
    obtain ⟨na, hna1, hna2⟩ := hart
    refine ⟨nc, na, ?_, ?_, ?_⟩
    · rw [hna1, hnc1]
    · intro e he; exact entryMetaOk_of_odSet (hnc2 e he)
    · intro e he; exact entryMetaOk_of_odSet (hna2 e he)

/-! ### Run-level preservation -/

theorem popPassAux_pres {k : Nat} {L : Int} {buffer : List Char} {base : Nat}
    {P : PState → Prop}
    (hP : ∀ xml st st', processEntry k L xml st = .ok st' → P st → P st') :
    ∀ (fuel : Nat) (bpOpt : Option Nat) (fp counter : Nat) (st st' : PState) (fp' : Nat),
      popPassAux k L buffer base fuel bpOpt fp counter st = some (.ok (st', fp')) →
      P st → P st' := by
  intro fuel
  induction fuel with
  | zero =>
    intro bpOpt fp counter st st' fp' h hp
    cases bpOpt with
    | none =>
      simp only [popPassAux, Option.some.injEq, Except.ok.injEq, Prod.mk.injEq] at h
      rw [← h.1]
      exact hp
    | some bp => simp [popPassAux] at h
  | succ fuel ih =>
    intro bpOpt fp counter st st' fp' h hp
    cases bpOpt with
    | none =>
      simp only [popPassAux, Option.some.injEq, Except.ok.injEq, Prod.mk.injEq] at h
      rw [← h.1]
      exact hp
    | some bp =>
      simp only [popPassAux] at h
      split at h
      · split at h
        · split at h
          · simp at h
          · rename_i st2 hproc
            split at h
            · simp only [Option.some.injEq, Except.ok.injEq, Prod.mk.injEq] at h
              rw [← h.1]
              exact hP _ _ _ hproc hp
            · exact ih _ _ _ _ _ _ h (hP _ _ _ hproc hp)
        · split at h
          · simp at h
          · simp only [Option.some.injEq, Except.ok.injEq, Prod.mk.injEq] at h
            rw [← h.1]
            exact hp
      · split at h
        · simp at h
        · simp only [Option.some.injEq, Except.ok.injEq, Prod.mk.injEq] at h
          rw [← h.1]
          exact hp

theorem popLoopAux_pres {k : Nat} {L : Int} {file : List Char} {B : Nat}
    {P : PState → Prop}
    (hP : ∀ xml st st', processEntry k L xml st = .ok st' → P st → P st') :
    ∀ (fuel stale fp : Nat) (st st' : PState),
      popLoopAux k L file B fuel stale fp st = some (.ok st') → P st → P st' := by
  intro fuel
  induction fuel with
  | zero => intro stale fp st st' h hp; simp [popLoopAux] at h
  | succ fuel ih =>
    intro stale fp st st' h hp
    simp only [popLoopAux] at h
    split at h
    · split at h
      · simp only [Option.some.injEq, Except.ok.injEq] at h
        rw [← h]
        exact hp
      · split at h
        · simp at h
        · simp at h
        · rename_i st2 fp2 hpass
          exact ih _ _ _ _ h (popPassAux_pres hP _ _ _ _ _ _ _ hpass hp)
    · simp only [Option.some.injEq, Except.ok.injEq] at h
      rw [← h]
      exact hp

theorem populate_ok_inv {corpus0 : List CorpusEntry} {file : List Char} {k : Nat}
    {L : Int} {B : Nat} {c' : List CorpusEntry}
    (h : populate_uniprot_corpus corpus0 file k L B = some (.ok c')) :
    ∃ st', popLoopAux k L file B (file.length + 2) 0 0 ⟨corpus0, 0, 0⟩ = some (.ok st') ∧
      st'.corpus = c' := by
  unfold populate_uniprot_corpus at h
  cases hres : popLoopAux k L file B (file.length + 2) 0 0 ⟨corpus0, 0, 0⟩ with
  | none => rw [hres] at h; simp at h
  | some r =>
    cases r with
    | error e => rw [hres] at h; simp [Except.map] at h
    | ok st' =>
      rw [hres] at h
      simp [Except.map] at h
      exact ⟨st', rfl, h⟩

theorem populate_run_pres {corpus0 : List CorpusEntry} {file : List Char} {k : Nat}
    {L : Int} {B : Nat} {c' : List CorpusEntry} {P : PState → Prop}
    (hP : ∀ xml st st', processEntry k L xml st = .ok st' → P st → P st')
    (h : populate_uniprot_corpus corpus0 file k L B = some (.ok c'))
    (h0 : P ⟨corpus0, 0, 0⟩) : ∃ st', st'.corpus = c' ∧ P st' := by
  obtain ⟨st', h1, h2⟩ := populate_ok_inv h
  exact ⟨st', h2, popLoopAux_pres hP _ _ _ _ _ h1 h0⟩

/-! ### Whitespace tokenization of the length attribute -/

theorem mem_of_getLast?_eq : ∀ {l : List Char} {c : Char}, l.getLast? = some c → c ∈ l := by
  intro l
  induction l with
  | nil => intro c h; exact Option.noConfusion h
  | cons a t ih =>
    intro c h
    cases t with
    | nil =>
      have : a = c := by simpa using h
      subst this
      exact List.mem_singleton_self a
    | cons b t' =>
      rw [List.getLast?_cons_cons] at h
      exact List.mem_cons_of_mem a (ih h)

theorem getLast?_append_right {l1 l2 : List Char} (h : l2 ≠ []) :
    (l1 ++ l2).getLast? = l2.getLast? := by
  rw [List.getLast?_append]
  cases hl : l2.getLast? with
  | none => exact absurd (List.getLast?_eq_none_iff.mp hl) h
  | some c => rfl

theorem getLast?_pyStrip {p : Char → Bool} {l : List Char} {c : Char}
    (hc : p c = false) (h : l.getLast? = some c) :
    (pyStrip p l).getLast? = some c := by
  have hsplit := List.takeWhile_append_dropWhile p l
  have hs1 : (l.dropWhile p).getLast? = some c := by
    cases hs : l.dropWhile p with
    | nil =>
      have hl : l = l.takeWhile p := by
        conv_lhs => rw [← hsplit]
        rw [hs, List.append_nil]
      have hcmem : c ∈ l := mem_of_getLast?_eq h
      rw [hl] at hcmem
      have := List.mem_takeWhile_imp hcmem
      rw [hc] at this
      exact Bool.noConfusion this
    | cons a t =>
      have h2 : (l.takeWhile p ++ l.dropWhile p).getLast? = some c := by rw [hsplit]; exact h
      rw [getLast?_append_right (by rw [hs]; simp)] at h2
      rw [hs] at h2
      exact h2
  cases hWe : (l.dropWhile p).reverse with
  | nil =>
    have : l.dropWhile p = [] := by
      have := congrArg List.reverse hWe
      simpa using this
    rw [this] at hs1
    exact Option.noConfusion hs1
  | cons a t =>
    have hW : (l.dropWhile p).reverse.head? = some c := by
      rw [List.head?_reverse]; exact hs1
    rw [hWe] at hW
    have ha : a = c := by simpa using hW
    subst ha
    have hdwW : (l.dropWhile p).reverse.dropWhile p = (l.dropWhile p).reverse := by
      rw [hWe, List.dropWhile_cons, if_neg (by simp [hc])]
    unfold pyStrip
    rw [hdwW, List.reverse_reverse]
    exact hs1

theorem pyIntCore_error_of_last {l : List Char} {c : Char} (h : l.getLast? = some c)
    (hd : c.isDigit = false) (hm : c ≠ '-') (hp2 : c ≠ '+') : pyIntCore l = .error () := by
  cases l with
  | nil => exact Option.noConfusion h
  | cons a rest =>
    have hcl : c ∈ a :: rest := mem_of_getLast?_eq h
    have hrest : rest ≠ [] → c ∈ rest := by
      intro hne
      cases rest with
      | nil => exact absurd rfl hne
      | cons b t =>
        have h2 : (b :: t).getLast? = some c := by
          rw [← List.getLast?_cons_cons]
          exact h
        exact mem_of_getLast?_eq h2
    by_cases h1 : a = '-'
    · subst h1
      cases rest with
      | nil =>
        have : '-' = c := by simpa using h
        exact absurd this.symm hm
      | cons b t =>
        have hnd : ¬ ((b :: t).all (fun d => d.isDigit) = true) := by
          intro hall
          rw [List.all_eq_true] at hall
          have := hall c (hrest (by simp))
          rw [hd] at this
          exact Bool.noConfusion this
        simp [pyIntCore]
        simpa using hnd
    · by_cases h2 : a = '+'
      · subst h2
        cases rest with
        | nil =>
          have : '+' = c := by simpa using h
          exact absurd this.symm hp2
        | cons b t =>
          have hnd : ¬ ((b :: t).all (fun d => d.isDigit) = true) := by
            intro hall
            rw [List.all_eq_true] at hall
            have := hall c (hrest (by simp))
            rw [hd] at this
            exact Bool.noConfusion this
          simp [pyIntCore]
          simpa using hnd
      · have hnd : ¬ ((a :: rest).all (fun d => d.isDigit) = true) := by
          intro hall
          rw [List.all_eq_true] at hall
          have := hall c hcl
          rw [hd] at this
          exact Bool.noConfusion this
        simp [pyIntCore, h1, h2]
        simpa using hnd

theorem splitOn_pair {l a b : List Char} {x : Char} (h : l.splitOn x = [a, b]) :
    l = a ++ x :: b := by
  have h2 := List.intercalate_splitOn l x
  rw [h] at h2
  rw [← h2]
  simp [List.intercalate]

/-- If `get_uniprot_entry_length` successfully parses a length on a record
that ends (as every scanned record does) with `'>'`, then some whitespace
must occur at or after the `length=` attribute: the extracted token is cut at
whitespace only, and a token running to the end of the record drags the
closing-tag characters into `int(...)`, which then raises. -/
theorem length_parse_needs_whitespace (xml : List Char) (v : Int) (s p : Nat)
    (hok : get_uniprot_entry_length xml = .ok v)
    (hs : pyFind xml seqTag 0 = some s) (hp : pyFind xml lengthAttr s = some p)
    (hlast : xml.getLast? = some '>') :
    (xml.drop p).any isPySpace = true := by
  by_contra hany
  rw [Bool.not_eq_true, List.any_eq_false] at hany
  obtain ⟨-, hmp, -, -⟩ := pyFind_some hp
  have hparse : parseLengthToken (xml.drop p) = .ok v := by
    rw [get_uniprot_entry_length] at hok
    simp only [hs, hp] at hok
    exact hok
  have hpre : lengthAttr <+: xml.drop p := hmp
  cases htail : xml.drop p with
  | nil =>
    rw [htail] at hpre
    have := hpre.length_le
    simp [lengthAttr] at this
  | cons c rest =>
    have hallns : ∀ ch ∈ c :: rest, isPySpace ch = false := by
      intro ch hch
      have h5 := hany ch (by rw [htail]; exact hch)
      simpa using h5
    have hdw : (c :: rest).dropWhile isPySpace = c :: rest := by
      rw [List.dropWhile_cons, if_neg]
      rw [hallns c (by simp)]
      simp
    have htw : (c :: rest).takeWhile (fun ch => ! isPySpace ch) = c :: rest := by
      rw [List.takeWhile_eq_self_iff]
      intro x hx
      rw [hallns x hx]
      rfl
    rw [htail, parseLengthToken, hdw] at hparse
    simp only [htw] at hparse
    have hlast_tail : (xml.drop p).getLast? = some '>' := by
      have hsplit : xml.take p ++ xml.drop p = xml := List.take_append_drop p xml
      rw [← hsplit] at hlast
      rw [getLast?_append_right (by rw [htail]; simp)] at hlast
      exact hlast
    rw [htail] at hlast_tail
    cases hsp : (c :: rest).splitOn '=' with
    | nil => rw [hsp] at hparse; exact Except.noConfusion hparse
    | cons a1 t1 =>
      cases t1 with
      | nil => rw [hsp] at hparse; exact Except.noConfusion hparse
      | cons a2 t2 =>
        cases t2 with
        | cons a3 t3 => rw [hsp] at hparse; exact Except.noConfusion hparse
        | nil =>
          rw [hsp] at hparse
          change pyInt (pyStrip (fun ch => ch == '"') a2) = Except.ok v at hparse
          have hl2 : c :: rest = a1 ++ '=' :: a2 := splitOn_pair hsp
          have ha2ne : a2 ≠ [] := by
            intro h0
            subst h0
            exact Except.noConfusion hparse
          have hlast_a2 : a2.getLast? = some '>' := by
            rw [hl2] at hlast_tail
            rw [getLast?_append_right (by simp)] at hlast_tail
            cases a2 with
            | nil => exact absurd rfl ha2ne
            | cons b bs =>
              rw [List.getLast?_cons_cons] at hlast_tail
              exact hlast_tail
          have hstrip : (pyStrip (fun ch => ch == '"') a2).getLast? = some '>' :=
            getLast?_pyStrip (by decide) hlast_a2
          have herr : pyInt (pyStrip (fun ch => ch == '"') a2) = .error () := by
            rw [pyInt]
            exact pyIntCore_error_of_last (getLast?_pyStrip (by decide) hstrip)
              (by decide) (by decide) (by decide)
          rw [herr] at hparse
          exact Except.noConfusion hparse

/-! ### Per-property steps through `processEntry` -/

theorem processEntry_card {k c0 : Nat} {L : Int} {xml : List Char} {st st' : PState}
    (h : processEntry k L xml st = .ok st')
    (hc : st.corpus.length ≤ c0 + min st.nused k) :
    st'.corpus.length ≤ c0 + min st'.nused k := by
  rcases processEntry_ok_eq h with rfl | hEq
  · exact hc
  · rw [hEq]
    exact foldl_pres (fun s g hs => addSentences_card _ s hs) _ _
      (foldl_pres (fun s g hs => addSentences_card _ s hs) _ _ hc)

theorem processEntry_nodup {k : Nat} {L : Int} {xml : List Char} {st st' : PState}
    (h : processEntry k L xml st = .ok st')
    (hc : (st.corpus.map CorpusEntry.text).Nodup) :
    (st'.corpus.map CorpusEntry.text).Nodup := by
  rcases processEntry_ok_eq h with rfl | hEq
  · exact hc
  · rw [hEq]
    exact foldl_pres (fun s g hs => addSentences_nodup _ s hs) _ _
      (foldl_pres (fun s g hs => addSentences_nodup _ s hs) _ _ hc)

theorem processEntry_frozen {k : Nat} {L : Int} {xml : List Char} {st st' : PState}
    (h : processEntry k L xml st = .ok st') (hk : k ≤ st.nused) :
    st'.corpus = st.corpus := by
  rcases processEntry_ok_eq h with rfl | hEq
  · rfl
  · rw [hEq]
    have step : ∀ (meta : List (String × List Char)) (tv : List Char) (s : PState)
        (g : List Char), s.corpus = st.corpus ∧ k ≤ s.nused →
        (addSentences k meta tv (pySplitSeq sentenceSep g) s).corpus = st.corpus ∧
          k ≤ (addSentences k meta tv (pySplitSeq sentenceSep g) s).nused := by
      intro meta tv s g hp
      obtain ⟨h1, h2⟩ := addSentences_frozen (pySplitSeq sentenceSep g) s hp.2
      exact ⟨h1.trans hp.1, h2⟩
    exact (foldl_pres (step _ _) _ _ (foldl_pres (step _ _) _ _ ⟨rfl, hk⟩)).1

theorem processEntry_extends {k : Nat} {L : Int} {xml : List Char} {st st' : PState}
    (h : processEntry k L xml st = .ok st') :
    ∃ new, st'.corpus = st.corpus ++ new := by
  obtain ⟨nc, na, hcorp, -, -⟩ := processEntry_corpus h
  exact ⟨nc ++ na, by rw [hcorp, List.append_assoc]⟩

/-! ### Populate-level consequences -/

theorem populate_extends_and_capped {corpus0 : List CorpusEntry} {file : List Char}
    {k : Nat} {L : Int} {B : Nat} {c' : List CorpusEntry}
    (h : populate_uniprot_corpus corpus0 file k L B = some (.ok c')) :
    ∃ new, c' = corpus0 ++ new ∧ new.length ≤ k := by
  have hrun := populate_run_pres
    (P := fun st => (∃ new, st.corpus = corpus0 ++ new) ∧
      st.corpus.length ≤ corpus0.length + min st.nused k)
    (fun xml st st' hok hp => by
      obtain ⟨⟨new1, hn1⟩, hlen⟩ := hp
      obtain ⟨new2, hn2⟩ := processEntry_extends hok
      exact ⟨⟨new1 ++ new2, by rw [hn2, hn1, List.append_assoc]⟩,
        processEntry_card hok hlen⟩)
    h ⟨⟨[], by simp⟩, by simp⟩
  obtain ⟨st', hco, ⟨new, hnew⟩, hlen⟩ := hrun
  refine ⟨new, by rw [← hco, hnew], ?_⟩
  rw [hnew, List.length_append] at hlen
  omega

theorem populate_nodup {file : List Char} {k : Nat} {L : Int} {B : Nat}
    {c' : List CorpusEntry}
    (h : populate_uniprot_corpus [] file k L B = some (.ok c')) :
    (c'.map CorpusEntry.text).Nodup := by
  have hrun := populate_run_pres
    (P := fun st => (st.corpus.map CorpusEntry.text).Nodup)
    (fun xml st st' hok hp => processEntry_nodup hok hp) h (by simp)
  obtain ⟨st', hco, hp⟩ := hrun
  rw [← hco]
  exact hp

theorem populate_good_meta {corpus0 : List CorpusEntry} {file : List Char}
    {k : Nat} {L : Int} {B : Nat} {c' : List CorpusEntry}
    (h : populate_uniprot_corpus corpus0 file k L B = some (.ok c')) :
    ∀ e ∈ c', e ∈ corpus0 ∨ GoodMeta e := by
  have hrun := populate_run_pres
    (P := fun st => ∀ e ∈ st.corpus, e ∈ corpus0 ∨ GoodMeta e)
    (fun xml st st' hok hp => by
      obtain ⟨nc, na, hcorp, hnc, hna⟩ := processEntry_corpus hok
      intro e he
      rw [hcorp] at he
      rcases List.mem_append.mp he with he1 | he2
      · rcases List.mem_append.mp he1 with he1a | he1b
        · exact hp e he1a
        · exact Or.inr (goodMeta_of_entryMetaOk (Or.inl rfl) (hnc e he1b))
      · exact Or.inr (goodMeta_of_entryMetaOk (Or.inr rfl) (hna e he2)))
    h (fun e he => Or.inl he)
  obtain ⟨st', hco, hp⟩ := hrun
  rw [← hco]
  exact hp

/-! ### Claims about the extractor and assembler -/

/-- C3: running `populate_uniprot_corpus` with `max_added = k` appends at most
`k` new `CorpusEntry` items to the corpus (the returned corpus is the initial
corpus plus at most `k` new entries), and once `k` sentences have been added
in the run, processing any further record leaves the corpus unchanged —
appends are suppressed for both the comment pass and the title pass. -/
theorem C3_cap_enforcement (file : List Char) (B k : Nat) (maxLength : Int)
    (corpus0 c' : List CorpusEntry)
    (h : populate_uniprot_corpus corpus0 file k maxLength B = some (.ok c')) :
    (∃ new, c' = corpus0 ++ new ∧ new.length ≤ k) ∧
    (∀ (xml : List Char) (st st' : PState), k ≤ st.nused →
      processEntry k maxLength xml st = .ok st' → st'.corpus = st.corpus) :=
  ⟨populate_extends_and_capped h,
   fun _ _ _ hk hok => processEntry_frozen hok hk⟩

theorem C3_cap_enforcement_witness :
    (∃ new, capDemoCorpus = ([] : List CorpusEntry) ++ new ∧ new.length ≤ 2) ∧
    (∀ (xml : List Char) (st st' : PState), 2 ≤ st.nused →
      processEntry 2 100 xml st = .ok st' → st'.corpus = st.corpus) :=
  C3_cap_enforcement capDemoFile capDemoFile.length 2 100 [] capDemoCorpus (by rfl)

/-- C4: a record whose extracted length is strictly below `max_length` is
eligible for field extraction, one whose length is greater or equal is
excluded (the record contributes nothing, counters included), and a record
with no `<sequence` element or no `length=` attribute gets the sentinel `-1`,
which is below every positive threshold.  Concretely, with threshold 100:
`length="50"` is eligible, `length="150"` is excluded, a record without a
length is eligible. -/
theorem C4_length_filter :
    (∀ xml : List Char, pyFind xml seqTag 0 = none →
      get_uniprot_entry_length xml = .ok (-1)) ∧
    (∀ (xml : List Char) (s : Nat), pyFind xml seqTag 0 = some s →
      pyFind xml lengthAttr s = none → get_uniprot_entry_length xml = .ok (-1)) ∧
    (∀ (k : Nat) (L v : Int) (xml : List Char) (st : PState),
      get_uniprot_entry_length xml = .ok v → L ≤ v →
      processEntry k L xml st = .ok st) ∧
    (∀ L : Int, 0 < L → (-1 : Int) < L) ∧
    get_uniprot_entry_length lenDemo50 = .ok 50 ∧
    get_uniprot_entry_length lenDemo150 = .ok 150 ∧
    get_uniprot_entry_length lenDemoNone = .ok (-1) ∧
    populate_uniprot_corpus [] lenDemoFile50 1000000 100 lenDemoFile50.length =
      some (.ok [⟨"anti alpha.".toList,
        [("source", "Uniprot".toList), ("type", "comment".toList)]⟩]) ∧
    populate_uniprot_corpus [] lenDemoFile150 1000000 100 lenDemoFile150.length =
      some (.ok []) ∧
    populate_uniprot_corpus [] lenDemoFileNone 1000000 100 lenDemoFileNone.length =
      some (.ok [⟨"anti gamma.".toList,
        [("source", "Uniprot".toList), ("type", "comment".toList)]⟩]) := by
  refine ⟨?_, ?_, ?_, ?_, by rfl, by rfl, by rfl, by rfl, by rfl, by rfl⟩
  · intro xml h
    rw [get_uniprot_entry_length]
    simp only [h]
  · intro xml s h1 h2
    rw [get_uniprot_entry_length]
    simp only [h1, h2]
  · intro k L v xml st h1 h2
    exact processEntry_excluded st h1 h2
  · intro L hL
    omega

theorem C4_length_filter_witness :
    get_uniprot_entry_length lenDemoNone = .ok (-1) ∧
    processEntry 1000000 100 lenDemo150 ⟨[], 0, 0⟩ = .ok ⟨[], 0, 0⟩ ∧
    ((-1 : Int) < 100) :=
  ⟨C4_length_filter.2.2.2.2.2.2.1,
   C4_length_filter.2.2.1 1000000 100 150 lenDemo150 ⟨[], 0, 0⟩ (by rfl) (by omega),
   C4_length_filter.2.2.2.1 100 (by omega)⟩

/-- C5 (counterexample): the record `accDemoEntry` has two accession matches,
`A00001` first and `B00002` second, yet the produced entry's `ID` is
`B00002`, the last match, not the first: the loop of line 132 re-assigns
`meta["ID"]` for every match. -/
theorem C5_counterexample :
    accessionIds accDemoEntry = ["A00001".toList, "B00002".toList] ∧
    populate_uniprot_corpus [] accDemoFile 1000000 100 accDemoFile.length =
      some (.ok [accDemoResult]) ∧
    accDemoResult.meta.lookup "ID" = some ("B00002".toList) ∧
    ("B00002".toList : List Char) ≠ "A00001".toList :=
  ⟨by rfl, by rfl, by rfl, by decide⟩

/-- C5 (amended): for every record with at least one `<accession>` match, the
value stored under the meta key `ID` of every `CorpusEntry` produced from
that record is the LAST accession match in the record (the source loops over
all matches, overwriting `meta["ID"]` each time). -/
theorem C5_accession_last_kept (k : Nat) (L : Int) (xml : List Char) (st st' : PState)
    (hne : accessionIds xml ≠ []) (h : processEntry k L xml st = .ok st')
    (e : CorpusEntry) (he : e ∈ st'.corpus) (hnew : e ∉ st.corpus) :
    e.meta.lookup "ID" = some ((accessionIds xml).getLastD []) := by
  obtain ⟨nc, na, hcorp, hnc, hna⟩ := processEntry_corpus h
  rw [hcorp] at he
  have hor : EntryMetaOk xml "comment".toList e ∨ EntryMetaOk xml "article".toList e := by
    rcases List.mem_append.mp he with h1 | h2
    · rcases List.mem_append.mp h1 with h1a | h1b
      · exact absurd h1a hnew
      · exact Or.inl (hnc e h1b)
    · exact Or.inr (hna e h2)
  rcases hor with hok | hok <;> rcases hok with ⟨hnil, -⟩ | ⟨-, hm⟩ <;>
    first
      | exact absurd hnil hne
      | (rw [hm]; rfl)

theorem C5_accession_last_kept_witness :
    accDemoResult.meta.lookup "ID" = some ((accessionIds accDemoEntry).getLastD []) :=
  C5_accession_last_kept 1000000 100 accDemoEntry ⟨[], 0, 0⟩ ⟨[accDemoResult], 1, 1⟩
    (by decide) (by rfl) accDemoResult (List.mem_singleton_self _) (by simp)

/-- C6: starting from an empty corpus, the texts of the returned corpus are
pairwise distinct — a sentence whose exact text is already in the corpus is
never appended again; concretely, a file whose two records carry the same
comment sentence yields a single `CorpusEntry`. -/
theorem C6_dedup (file : List Char) (B k : Nat) (L : Int) (c' : List CorpusEntry)
    (h : populate_uniprot_corpus [] file k L B = some (.ok c')) :
    (c'.map CorpusEntry.text).Nodup ∧
    populate_uniprot_corpus [] dupDemoFile 1000000 100 dupDemoFile.length =
      some (.ok dupDemoCorpus) :=
  ⟨populate_nodup h, by rfl⟩

theorem C6_dedup_witness :
    (dupDemoCorpus.map CorpusEntry.text).Nodup ∧
    populate_uniprot_corpus [] dupDemoFile 1000000 100 dupDemoFile.length =
      some (.ok dupDemoCorpus) :=
  C6_dedup dupDemoFile dupDemoFile.length 1000000 100 dupDemoCorpus (by rfl)

/-- C7: the two-record end-to-end scenario: entry 1 (`length="30"`, comment
`"Shows anti-viral activity. Unrelated note."`) and entry 2 (`length="200"`,
comment `"Shows anti-viral activity."`), `max_length = 100`, buffer covering
the file: the corpus holds exactly one entry, text
`"Shows anti-viral activity"`, `type = "comment"`; entry 2 is length-filtered
out. -/
theorem C7_end_to_end :
    populate_uniprot_corpus [] e2eDemoFile 1000000 100 e2eDemoFile.length =
      some (.ok [⟨"Shows anti-viral activity".toList,
        [("source", "Uniprot".toList), ("type", "comment".toList)]⟩]) := by rfl

/-- C8: when a record contains `<sequence` followed by `length=` whose value
does not parse as an integer, `get_uniprot_entry_length` raises (it never
substitutes the `-1` sentinel on the parse path), and the exception is not
caught anywhere in `populate_uniprot_corpus`: the run aborts. -/
theorem C8_malformed_length_fatal :
    (∀ (xml : List Char) (s p : Nat), pyFind xml seqTag 0 = some s →
      pyFind xml lengthAttr s = some p →
      parseLengthToken (xml.drop p) = .error () →
      get_uniprot_entry_length xml = .error ()) ∧
    get_uniprot_entry_length badLenDemoEntry = .error () ∧
    populate_uniprot_corpus [] badLenDemoFile 1000000 100 badLenDemoFile.length =
      some (.error ()) := by
  refine ⟨?_, by rfl, by rfl⟩
  intro xml s p hs hp hperr
  rw [get_uniprot_entry_length]
  simp only [hs, hp]
  exact hperr

theorem C8_malformed_length_fatal_witness :
    get_uniprot_entry_length badLenDemoEntry = .error () :=
  C8_malformed_length_fatal.1 badLenDemoEntry 8 18 (by rfl) (by rfl) (by rfl)

/-- C9: length extraction tokenizes on whitespace.  The well-formed record
`noSpaceLenDemo`, whose `<sequence>` tag closes right after the quoted value,
makes `get_uniprot_entry_length` raise `ValueError` instead of returning 42,
while the variant with a space parses to 42; and in general a successful
parse on a record (which ends in `'>'`) requires whitespace at or after the
`length=` attribute. -/
theorem C9_whitespace_tokenization :
    get_uniprot_entry_length noSpaceLenDemo = .error () ∧
    get_uniprot_entry_length withSpaceLenDemo = .ok 42 ∧
    (∀ (xml : List Char) (v : Int) (s p : Nat),
      get_uniprot_entry_length xml = .ok v →
      pyFind xml seqTag 0 = some s → pyFind xml lengthAttr s = some p →
      xml.getLast? = some '>' →
      (xml.drop p).any isPySpace = true) :=
  ⟨by rfl, by rfl, length_parse_needs_whitespace⟩

theorem C9_whitespace_tokenization_witness :
    (withSpaceLenDemo.drop 18).any isPySpace = true :=
  C9_whitespace_tokenization.2.2 withSpaceLenDemo 42 8 18 (by rfl) (by rfl) (by rfl)
    (by rfl)

/-- C10: every `CorpusEntry` appended by a run carries its own metadata
mapping of the fixed shape `source = "Uniprot"`, then optionally `ID`, then
`type` equal to `"comment"` or `"article"`; and per record, the entries of
the comment pass carry `type = "comment"`, those of the title pass
`type = "article"`, with the `ID` key present exactly when the record has at
least one accession match. -/
theorem C10_meta_invariant :
    (∀ (corpus0 : List CorpusEntry) (file : List Char) (B k : Nat) (L : Int)
        (c' : List CorpusEntry),
      populate_uniprot_corpus corpus0 file k L B = some (.ok c') →
      ∀ e ∈ c', e ∈ corpus0 ∨ GoodMeta e) ∧
    (∀ (k : Nat) (L : Int) (xml : List Char) (st st' : PState),
      processEntry k L xml st = .ok st' →
      ∃ nc na, st'.corpus = st.corpus ++ nc ++ na ∧
        (∀ e ∈ nc, EntryMetaOk xml "comment".toList e) ∧
        (∀ e ∈ na, EntryMetaOk xml "article".toList e)) :=
  ⟨fun _ _ _ _ _ _ h => populate_good_meta h,
   fun _ _ _ _ _ h => processEntry_corpus h⟩

theorem C10_meta_invariant_witness :
    accDemoResult ∈ ([] : List CorpusEntry) ∨ GoodMeta accDemoResult :=
  C10_meta_invariant.1 [] accDemoFile accDemoFile.length 1000000 100 [accDemoResult]
    (by rfl) accDemoResult (List.mem_singleton_self _)

theorem recOrder_mem : ∀ {p : Nat} {l : List (Nat × Nat)}, RecOrder p l →
    ∀ r ∈ l, p ≤ r.1 ∧ r.1 + 15 ≤ r.2 := by
  intro p l
  induction l generalizing p with
  | nil => intro _ r hr; exact absurd hr (List.not_mem_nil r)
  | cons a tl ih =>
    intro h r hr
    obtain ⟨s, e⟩ := a
    obtain ⟨h1, h2, h3⟩ := h
    rcases List.mem_cons.mp hr with rfl | hr'
    · exact ⟨h1, h2⟩
    · obtain ⟨g1, g2⟩ := ih h3 r hr'
      exact ⟨by omega, g2⟩

theorem gapFits_of_ends {file : List Char} : ∀ {p : Nat} {l : List (Nat × Nat)},
    RecOrder p l → (∀ r ∈ l, r.2 ≤ file.length) → GapFits file.length p l := by
  intro p l
  induction l generalizing p with
  | nil => intro _ _; trivial
  | cons a tl ih =>
    intro h hend
    obtain ⟨s, e⟩ := a
    obtain ⟨h1, h2, h3⟩ := h
    refine ⟨?_, ih h3 (fun r hr => hend r (List.mem_cons_of_mem _ hr))⟩
    have := hend (s, e) (List.mem_cons_self _ _)
    simp only at this
    omega

theorem tagsFrom_tail {file : List Char} {p s e : Nat} {tl : List (Nat × Nat)}
    (ho : RecOrder p ((s, e) :: tl)) (ht : TagsFrom file p ((s, e) :: tl)) :
    TagsFrom file e tl := by
  obtain ⟨h1, h2, h3⟩ := ho
  obtain ⟨hs, he⟩ := ht
  constructor
  · intro j hj
    rw [hs j (by omega)]
    constructor
    · rintro ⟨r, hr, hr1⟩
      rcases List.mem_cons.mp hr with rfl | hr'
      · omega
      · exact ⟨r, hr', hr1⟩
    · rintro ⟨r, hr, hr1⟩
      exact ⟨r, List.mem_cons_of_mem _ hr, hr1⟩
  · intro j hj
    rw [he j (by omega)]
    constructor
    · rintro ⟨r, hr, hr1⟩
      rcases List.mem_cons.mp hr with rfl | hr'
      · simp only at hr1
        omega
      · exact ⟨r, hr', hr1⟩
    · rintro ⟨r, hr, hr1⟩
      exact ⟨r, List.mem_cons_of_mem _ hr, hr1⟩

theorem scanLayout_of_bounded {file : List Char} {recs : List (Nat × Nat)}
    (ho : RecOrder 0 recs) (hends : ∀ r ∈ recs, r.2 ≤ file.length)
    (hs : ∀ j, j < file.length → (MatchAt file startTag j ↔ ∃ r ∈ recs, r.1 = j))
    (he : ∀ j, j < file.length → (MatchAt file endTag j ↔ ∃ r ∈ recs, r.2 = j + 8)) :
    ScanLayout file recs := by
  refine ⟨ho, hends, ?_, ?_⟩
  · intro j
    by_cases hj : j < file.length
    · exact hs j hj
    · constructor
      · intro hm
        have := hm.add_length_le (by rw [startTag]; simp)
        rw [show startTag.length = 7 from rfl] at this
        omega
      · rintro ⟨r, hr, hr1⟩
        obtain ⟨-, g2⟩ := recOrder_mem ho r hr
        have := hends r hr
        omega
  · intro j
    by_cases hj : j < file.length
    · exact he j hj
    · constructor
      · intro hm
        have := hm.add_length_le (by rw [endTag]; simp)
        rw [show endTag.length = 8 from rfl] at this
        omega
      · rintro ⟨r, hr, hr1⟩
        obtain ⟨-, g2⟩ := recOrder_mem ho r hr
        have := hends r hr
        omega

/-! ### Scanner step equations -/

theorem scanPassAux_none {buffer : List Char} {base fuel fp c : Nat}
    {acc : List (List Char)} :
    scanPassAux buffer base fuel none fp c acc = some (.ok (acc, fp)) := by
  cases fuel <;> rfl

theorem scanPassAux_proc {buffer : List Char} {base fuel bp fp c ep : Nat}
    {acc : List (List Char)} (h : pyFind buffer endTag bp = some ep) (hpos : 0 < ep) :
    scanPassAux buffer base (fuel + 1) (some bp) fp c acc =
      scanPassAux buffer base fuel (pyFind buffer startTag (bp + 1))
        (base + ep + endTag.length) (c + 1)
        (acc ++ [pySlice buffer bp (ep + endTag.length)]) := by
  simp only [scanPassAux, h]
  rw [if_pos hpos]

theorem scanPassAux_rewind {buffer : List Char} {base fuel bp fp c : Nat}
    {acc : List (List Char)} (h : pyFind buffer endTag bp = none) (hc : c ≠ 0) :
    scanPassAux buffer base (fuel + 1) (some bp) fp c acc =
      some (.ok (acc, base + bp)) := by
  simp only [scanPassAux, h]
  rw [if_neg hc]

theorem scanLoopAux_stop {file : List Char} {B fuel stale fp : Nat}
    {acc : List (List Char)} (h : ¬ stale < file.length) :
    scanLoopAux file B (fuel + 1) stale fp acc = some (.ok acc) := by
  simp only [scanLoopAux]
  rw [if_neg h]

theorem scanLoopAux_go {file : List Char} {B fuel stale fp fp' : Nat}
    {acc acc' : List (List Char)} (h : stale < file.length)
    (hpass : scanPassAux (pySlice file fp (fp + B)) fp
      ((pySlice file fp (fp + B)).length + 1)
      (pyFind (pySlice file fp (fp + B)) startTag 0)
      (fp + (pySlice file fp (fp + B)).length) 0 acc = some (.ok (acc', fp'))) :
    scanLoopAux file B (fuel + 1) stale fp acc = scanLoopAux file B fuel fp fp' acc' := by
  simp only [scanLoopAux]
  rw [if_pos h]
  simp only [hpass]

theorem matchAt_buffer {file pat : List Char} {B base r : Nat} :
    MatchAt (pySlice file base (base + B)) pat r ↔
      MatchAt file pat (base + r) ∧ pat.length ≤ B - r := by
  rw [MatchAt_pySlice, show base + B - base - r = B - r from by omega]

theorem buffer_length (file : List Char) (B base : Nat) :
    (pySlice file base (base + B)).length = min B (file.length - base) := by
  rw [pySlice_length, show base + B - base = B from by omega]

theorem pass_find_end {file : List Char} {B base p s e : Nat} {tl : List (Nat × Nat)}
    (ho : RecOrder p ((s, e) :: tl))
    (ht : TagsFrom file p ((s, e) :: tl))
    (hbs : base ≤ s)
    (hcont : e ≤ base + (pySlice file base (base + B)).length) :
    pyFind (pySlice file base (base + B)) endTag (s - base) = some (e - base - 8) := by
  obtain ⟨hps, hse, ho'⟩ := ho
  have hL : (pySlice file base (base + B)).length ≤ B := by
    rw [buffer_length]; omega
  apply pyFind_eq_some
  · omega
  · rw [matchAt_buffer]
    constructor
    · rw [show base + (e - base - 8) = e - 8 from by omega]
      refine (ht.2 (e - 8) (by omega)).mpr ⟨(s, e), List.mem_cons_self _ _, ?_⟩
      show e = e - 8 + 8
      omega
    · rw [show endTag.length = 8 from rfl]
      omega
  · rw [show endTag.length = 8 from rfl]
    omega
  · intro m h1 h2 hm
    rw [matchAt_buffer] at hm
    obtain ⟨hf, -⟩ := hm
    obtain ⟨r, hr, hr2⟩ := (ht.2 (base + m) (by omega)).mp hf
    rcases List.mem_cons.mp hr with rfl | hr'
    · simp only at hr2
      omega
    · obtain ⟨g1, g2⟩ := recOrder_mem ho' r hr'
      omega

theorem record_slice {file : List Char} {B base s e : Nat} (hbs : base ≤ s)
    (hse : s + 15 ≤ e) (heB : e ≤ base + B) :
    pySlice (pySlice file base (base + B)) (s - base) ((e - base - 8) + endTag.length) =
      pySlice file s e := by
  rw [show endTag.length = 8 from rfl]
  rw [show e - base - 8 + 8 = e - base from by omega]
  rw [pySlice_pySlice_of_le (show e - base ≤ B from by omega)]
  rw [show base + (s - base) = s from by omega, show base + (e - base) = e from by omega]

/-- One buffer pass of the scanner, from a start tag found at absolute offset
`s`: the pass emits the maximal run of records that fit in the loaded buffer
and leaves the file cursor either right after the last emitted record (buffer
exhausted) or at the start tag of the first record that did not fit
(rewind-and-refill). -/
theorem passConsume {file : List Char} {B : Nat} :
    ∀ (tl : List (Nat × Nat)) (s e p base counterStart fuel fpIn : Nat)
      (acc : List (List Char)),
      RecOrder p ((s, e) :: tl) →
      GapFits B e tl →
      (∀ r ∈ (s, e) :: tl, r.2 ≤ file.length) →
      TagsFrom file p ((s, e) :: tl) →
      base ≤ s →
      e ≤ base + (pySlice file base (base + B)).length →
      (pySlice file base (base + B)).length + 1 - (s - base) ≤ fuel →
      ∃ (consumed restAfter : List (Nat × Nat)) (p' fp' : Nat),
        (s, e) :: tl = consumed ++ restAfter ∧
        scanPassAux (pySlice file base (base + B)) base fuel (some (s - base)) fpIn
          counterStart acc =
          some (.ok (acc ++ consumed.map (fun r => pySlice file r.1 r.2), fp')) ∧
        RecOrder p' restAfter ∧ GapFits B p' restAfter ∧
        (∀ r ∈ restAfter, r.2 ≤ file.length) ∧
        TagsFrom file p' restAfter ∧
        p' ≤ fp' ∧ fp' ≤ file.length ∧ base < fp' ∧
        (∀ s2 e2 tl2, restAfter = (s2, e2) :: tl2 → fp' ≤ s2) := by
  intro tl
  induction tl with
  | nil =>
    intro s e p base counterStart fuel fpIn acc ho hg hends ht hbs hcont hfuel
    obtain ⟨hps, hse, -⟩ := ho
    have hsL : s - base + 15 ≤ (pySlice file base (base + B)).length := by omega
    have hLB : (pySlice file base (base + B)).length ≤ B := by rw [buffer_length]; omega
    cases fuel with
    | zero => omega
    | succ fuel =>
      have hoNil : RecOrder e ([] : List (Nat × Nat)) := trivial
      have hep := pass_find_end (p := p) (B := B) ⟨hps, hse, hoNil⟩ ht hbs hcont
      have hnext : pyFind (pySlice file base (base + B)) startTag (s - base + 1) = none := by
        apply pyFind_eq_none
        intro j hj hfit hm
        rw [matchAt_buffer] at hm
        obtain ⟨hf, -⟩ := hm
        obtain ⟨r, hr, hr1⟩ := (ht.1 (base + j) (by omega)).mp hf
        rcases List.mem_cons.mp hr with rfl | hr'
        · simp only at hr1
          omega
        · exact absurd hr' (List.not_mem_nil r)
      refine ⟨[(s, e)], [], e, base + (e - base - 8) + endTag.length, by simp, ?_,
        trivial, trivial, by simp, tagsFrom_tail ⟨hps, hse, hoNil⟩ ht, ?_, ?_, ?_, ?_⟩
      · rw [scanPassAux_proc hep (by omega), hnext, scanPassAux_none]
        rw [record_slice hbs hse (by omega)]
        simp only [List.map_cons, List.map_nil]
      · rw [show endTag.length = 8 from rfl]
        omega
      · rw [show endTag.length = 8 from rfl]
        have := hends (s, e) (List.mem_cons_self _ _)
        simp only at this
        omega
      · rw [show endTag.length = 8 from rfl]
        omega
      · intro s2 e2 tl2 h0
        exact absurd h0 (by simp)
  | cons head tl' ih =>
    obtain ⟨s2, e2⟩ := head
    intro s e p base counterStart fuel fpIn acc ho hg hends ht hbs hcont hfuel
    obtain ⟨hps, hse, ho'⟩ := ho
    have hes2 : e ≤ s2 := ho'.1
    have hs2e2 : s2 + 15 ≤ e2 := ho'.2.1
    have ho'' : RecOrder e2 tl' := ho'.2.2
    obtain ⟨he2B, hg'⟩ := hg
    have hsL : s - base + 15 ≤ (pySlice file base (base + B)).length := by omega
    have hLB : (pySlice file base (base + B)).length ≤ B := by rw [buffer_length]; omega
    have he2len : e2 ≤ file.length := by
      have := hends (s2, e2) (List.mem_cons_of_mem _ (List.mem_cons_self _ _))
      simpa using this
    have helen : e ≤ file.length := by
      have := hends (s, e) (List.mem_cons_self _ _)
      simpa using this
    cases fuel with
    | zero => omega
    | succ fuel =>
      have hep := pass_find_end (p := p) (B := B) ⟨hps, hse, ho'⟩ ht hbs hcont
      by_cases hvis : s2 - base + 7 ≤ (pySlice file base (base + B)).length
      · -- the next start tag is visible in the buffer
        have hnext : pyFind (pySlice file base (base + B)) startTag (s - base + 1) =
            some (s2 - base) := by
          apply pyFind_eq_some
          · omega
          · rw [matchAt_buffer]
            constructor
            · rw [show base + (s2 - base) = s2 from by omega]
              exact (ht.1 s2 (by omega)).mpr
                ⟨(s2, e2), List.mem_cons_of_mem _ (List.mem_cons_self _ _), rfl⟩
            · rw [show startTag.length = 7 from rfl]
              omega
          · rw [show startTag.length = 7 from rfl]
            omega
          · intro m h1 h2 hm
            rw [matchAt_buffer] at hm
            obtain ⟨hf, -⟩ := hm
            obtain ⟨r, hr, hr1⟩ := (ht.1 (base + m) (by omega)).mp hf
            rcases List.mem_cons.mp hr with rfl | hr'
            · simp only at hr1
              omega
            · rcases List.mem_cons.mp hr' with rfl | hr''
              · simp only at hr1
                omega
              · obtain ⟨g1, g2⟩ := recOrder_mem ho'' r hr''
                omega
        by_cases hfit2 : e2 ≤ base + (pySlice file base (base + B)).length
        · -- the next record fits entirely: the pass keeps consuming
          obtain ⟨consumed', restAfter', p', fp', hsplit, heq, hro, hgf, hre, htf,
            hpf, hfl, hbf, hhead⟩ :=
            ih s2 e2 e base (counterStart + 1) fuel
              (base + (e - base - 8) + endTag.length)
              (acc ++ [pySlice file s e]) ⟨hes2, hs2e2, ho''⟩ hg'
              (fun r hr => hends r (List.mem_cons_of_mem _ hr))
              (tagsFrom_tail ⟨hps, hse, ho'⟩ ht) (by omega) hfit2 (by omega)
          refine ⟨(s, e) :: consumed', restAfter', p', fp', ?_, ?_, hro, hgf, hre, htf,
            hpf, hfl, hbf, hhead⟩
          · rw [List.cons_append, ← hsplit]
          · rw [scanPassAux_proc hep (by omega), hnext]
            rw [record_slice hbs hse (by omega)]
            rw [heq]
            simp [List.append_assoc]
        · -- the next record does not fit: rewind to its start tag
          have hend2 : pyFind (pySlice file base (base + B)) endTag (s2 - base) = none := by
            apply pyFind_eq_none
            intro j hj hfit hm
            rw [matchAt_buffer] at hm
            obtain ⟨hf, -⟩ := hm
            obtain ⟨r, hr, hr2⟩ := (ht.2 (base + j) (by omega)).mp hf
            rw [show endTag.length = 8 from rfl] at hfit
            rcases List.mem_cons.mp hr with rfl | hr'
            · simp only at hr2
              omega
            · rcases List.mem_cons.mp hr' with rfl | hr''
              · simp only at hr2
                omega
              · obtain ⟨g1, g2⟩ := recOrder_mem ho'' r hr''
                omega
          cases fuel with
          | zero => omega
          | succ fuel =>
            refine ⟨[(s, e)], (s2, e2) :: tl', e, s2, by simp, ?_, ⟨hes2, hs2e2, ho''⟩,
              ⟨he2B, hg'⟩, fun r hr => hends r (List.mem_cons_of_mem _ hr),
              tagsFrom_tail ⟨hps, hse, ho'⟩ ht, hes2, by omega, by omega, ?_⟩
            · rw [scanPassAux_proc hep (by omega), hnext,
                scanPassAux_rewind hend2 (Nat.succ_ne_zero _)]
              rw [record_slice hbs hse (by omega)]
              rw [show base + (s2 - base) = s2 from by omega]
              simp only [List.map_cons, List.map_nil]
            · intro s3 e3 tl3 h0
              rw [List.cons.injEq, Prod.mk.injEq] at h0
              omega
      · -- the next start tag is not visible: the pass ends after this record
        have hnext : pyFind (pySlice file base (base + B)) startTag (s - base + 1) =
            none := by
          apply pyFind_eq_none
          intro j hj hfit hm
          rw [matchAt_buffer] at hm
          obtain ⟨hf, -⟩ := hm
          obtain ⟨r, hr, hr1⟩ := (ht.1 (base + j) (by omega)).mp hf
          rw [show startTag.length = 7 from rfl] at hfit
          rcases List.mem_cons.mp hr with rfl | hr'
          · simp only at hr1
            omega
          · rcases List.mem_cons.mp hr' with rfl | hr''
            · simp only at hr1
              omega
            · obtain ⟨g1, g2⟩ := recOrder_mem ho'' r hr''
              omega
        refine ⟨[(s, e)], (s2, e2) :: tl', e, base + (e - base - 8) + endTag.length,
          by simp, ?_, ⟨hes2, hs2e2, ho''⟩, ⟨he2B, hg'⟩,
          fun r hr => hends r (List.mem_cons_of_mem _ hr),
          tagsFrom_tail ⟨hps, hse, ho'⟩ ht, ?_, ?_, ?_, ?_⟩
        · rw [scanPassAux_proc hep (by omega), hnext, scanPassAux_none]
          rw [record_slice hbs hse (by omega)]
          simp only [List.map_cons, List.map_nil]
        · rw [show endTag.length = 8 from rfl]
          omega
        · rw [show endTag.length = 8 from rfl]
          omega
        · rw [show endTag.length = 8 from rfl]
          omega
        · intro s3 e3 tl3 h0
          rw [List.cons.injEq, Prod.mk.injEq] at h0
          rw [show endTag.length = 8 from rfl]
          omega

/-- The outer read loop of the scanner: from a resume point `base` satisfying
the between-pass invariant, the scan emits exactly the remaining records. -/
theorem scanRun {file : List Char} {B : Nat} (hB : 1 ≤ B) :
    ∀ (fuel : Nat) (rest : List (Nat × Nat)) (p base stale : Nat)
      (acc : List (List Char)),
      RecOrder p rest →
      GapFits B p rest →
      (∀ r ∈ rest, r.2 ≤ file.length) →
      TagsFrom file p rest →
      p ≤ base → base ≤ file.length →
      (∀ s e tl, rest = (s, e) :: tl → base ≤ s) →
      stale < file.length →
      (file.length - base) + 2 ≤ fuel →
      scanLoopAux file B fuel stale base acc =
        some (.ok (acc ++ rest.map (fun r => pySlice file r.1 r.2))) := by
  intro fuel
  induction fuel with
  | zero =>
    intro rest p base stale acc _ _ _ _ _ _ _ _ hfuel
    omega
  | succ fuel ih =>
    intro rest p base stale acc ho hg hends ht hpb hblen hhead hstale hfuel
    have hL : (pySlice file base (base + B)).length = min B (file.length - base) :=
      buffer_length file B base
    cases rest with
    | nil =>
      have hbp : pyFind (pySlice file base (base + B)) startTag 0 = none := by
        apply pyFind_eq_none
        intro j hj hfit hm
        rw [matchAt_buffer] at hm
        obtain ⟨hf, -⟩ := hm
        obtain ⟨r, hr, -⟩ := (ht.1 (base + j) (by omega)).mp hf
        exact absurd hr (List.not_mem_nil r)
      rw [scanLoopAux_go hstale (by rw [hbp]; exact scanPassAux_none)]
      by_cases hbl : base < file.length
      · have hL1 : 1 ≤ (pySlice file base (base + B)).length := by
          rw [hL]; omega
        exact ih [] p (base + (pySlice file base (base + B)).length) base acc
          trivial trivial (by simp) ht (by omega) (by omega)
          (by intro s e tl h0; exact absurd h0 (by simp)) hbl (by omega)
      · have hL0 : (pySlice file base (base + B)).length = 0 := by
          rw [hL]; omega
        rw [hL0]
        cases fuel with
        | zero => omega
        | succ fuel =>
          rw [scanLoopAux_stop hbl]
          simp
    | cons head tl =>
      obtain ⟨s, e⟩ := head
      obtain ⟨hps, hse, ho'⟩ := ho
      obtain ⟨heB, hg'⟩ := hg
      have hbs : base ≤ s := hhead s e tl rfl
      have helen : e ≤ file.length := by
        have := hends (s, e) (List.mem_cons_self _ _)
        simpa using this
      have hcont : e ≤ base + (pySlice file base (base + B)).length := by
        rw [hL]; omega
      have hbp : pyFind (pySlice file base (base + B)) startTag 0 = some (s - base) := by
        apply pyFind_eq_some
        · omega
        · rw [matchAt_buffer]
          constructor
          · rw [show base + (s - base) = s from by omega]
            exact (ht.1 s (by omega)).mpr ⟨(s, e), List.mem_cons_self _ _, rfl⟩
          · rw [show startTag.length = 7 from rfl]
            omega
        · rw [show startTag.length = 7 from rfl]
          omega
        · intro m h1 h2 hm
          rw [matchAt_buffer] at hm
          obtain ⟨hf, -⟩ := hm
          obtain ⟨r, hr, hr1⟩ := (ht.1 (base + m) (by omega)).mp hf
          rcases List.mem_cons.mp hr with rfl | hr'
          · simp only at hr1
            omega
          · obtain ⟨g1, g2⟩ := recOrder_mem ho' r hr'
            omega
      obtain ⟨consumed, restAfter, p', fp', hsplit, heq, hro, hgf, hre, htf, hpf, hfl,
        hbf, hheadA⟩ :=
        passConsume tl s e p base 0 ((pySlice file base (base + B)).length + 1)
          (base + (pySlice file base (base + B)).length) acc ⟨hps, hse, ho'⟩ hg' hends ht
          hbs hcont (by omega)
      have hblt : base < file.length := by
        rw [hL] at hcont
        omega
      rw [scanLoopAux_go hstale (by rw [hbp]; exact heq)]
      rw [hsplit, List.map_append, ← List.append_assoc]
      exact ih restAfter p' fp' base (acc ++ consumed.map (fun r => pySlice file r.1 r.2))
        hro hgf hre htf hpf hfl (fun s2 e2 tl2 h0 => hheadA s2 e2 tl2 h0) hblt (by omega)

/-- The scanner emits exactly the records of a valid layout whenever every
record together with its preceding gap fits in the buffer. -/
theorem scanEntries_complete {file : List Char} {recs : List (Nat × Nat)} {B : Nat}
    (hB : 1 ≤ B) (hlay : ScanLayout file recs) (hgap : GapFits B 0 recs) :
    scanEntries file B = some (.ok (recs.map (fun r => pySlice file r.1 r.2))) := by
  obtain ⟨ho, hends, hstart, hend⟩ := hlay
  by_cases hlen : file.length = 0
  · have hrecs : recs = [] := by
      cases recs with
      | nil => rfl
      | cons r tl =>
        obtain ⟨-, g2⟩ := recOrder_mem ho r (List.mem_cons_self _ _)
        have := hends r (List.mem_cons_self _ _)
        omega
    subst hrecs
    rw [scanEntries, show file.length + 2 = file.length + 1 + 1 from rfl,
      scanLoopAux_stop (by omega)]
    simp
  · rw [scanEntries]
    rw [scanRun hB (file.length + 2) recs 0 0 0 [] ho hgap hends
      ⟨fun j _ => hstart j, fun j _ => hend j⟩ (Nat.le_refl 0) (by omega)
      (fun s e tl _ => Nat.zero_le s) (by omega) (by omega)]
    simp

/-- C1 (counterexample): `scanDemoFile` is a valid input file — a 9-byte
`<uniprot>` header, one 56-byte record spanning `[9, 65)`, a trailer — and
`B = 56` holds the record itself; yet scanning with `B = 56` raises the fatal
buffer-too-small `ValueError` (the first buffer `[0, 56)` shows the start tag
at offset 9 but no end tag, with `counter == 0`), while scanning with a
buffer the size of the whole file returns the record.  The two scans are not
equal, refuting the claim as stated. -/
theorem C1_counterexample :
    ScanLayout scanDemoFile [(9, 65)] ∧
    scanDemoRecord.length ≤ 56 ∧
    scanEntries scanDemoFile 56 = some (.error ()) ∧
    scanEntries scanDemoFile scanDemoFile.length =
      some (.ok [pySlice scanDemoFile 9 65]) ∧
    scanEntries scanDemoFile 56 ≠ scanEntries scanDemoFile scanDemoFile.length := by
  refine ⟨scanLayout_of_bounded (by decide) (by decide) (by decide) (by decide),
    by decide, by rfl, by rfl, ?_⟩
  rw [show scanEntries scanDemoFile 56 = some (.error ()) from rfl,
    show scanEntries scanDemoFile scanDemoFile.length =
      some (.ok [pySlice scanDemoFile 9 65]) from rfl]
  simp

/-- C1 (amended): for every valid input file and every buffer size `B ≥ 1`
such that each record TOGETHER WITH the gap separating it from the end of the
previous record (or from the start of the file) fits in `B` — the `GapFits`
chain `e_i ≤ e_(i-1) + B` — scanning with buffer size `B` yields exactly the
file's record sequence, in order, with no record duplicated or skipped: the
same result as scanning with a buffer size equal to the whole file. -/
theorem C1_boundary_invariance (file : List Char) (recs : List (Nat × Nat)) (B : Nat)
    (hB : 1 ≤ B) (hlay : ScanLayout file recs) (hgap : GapFits B 0 recs) :
    scanEntries file B = scanEntries file file.length ∧
    scanEntries file B = some (.ok (recs.map (fun r => pySlice file r.1 r.2))) := by
  have h1 := scanEntries_complete hB hlay hgap
  refine ⟨?_, h1⟩
  by_cases hlen : file.length = 0
  · have hrecs : recs = [] := by
      cases recs with
      | nil => rfl
      | cons r tl =>
        obtain ⟨-, g2⟩ := recOrder_mem hlay.1 r (List.mem_cons_self _ _)
        have := hlay.2.1 r (List.mem_cons_self _ _)
        omega
    rw [h1, scanEntries, show file.length + 2 = file.length + 1 + 1 from rfl,
      scanLoopAux_stop (by omega), hrecs]
    simp
  · rw [h1, scanEntries_complete (by omega) hlay (gapFits_of_ends hlay.1 hlay.2.1)]

theorem C1_boundary_invariance_witness :
    scanEntries dupDemoFile 90 = scanEntries dupDemoFile dupDemoFile.length ∧
    scanEntries dupDemoFile 90 =
      some (.ok ([(9, 83), (83, 157)].map (fun r => pySlice dupDemoFile r.1 r.2))) :=
  C1_boundary_invariance dupDemoFile [(9, 83), (83, 157)] 90 (by omega)
    (scanLayout_of_bounded (by decide) (by decide) (by decide) (by decide)) (by decide)

/-- C2 (counterexample): in the first buffer pass of `scanDemoFile` with
`B = 56`, the start tag sits at the positive offset 9 and its end tag lies
beyond the buffer, and the 56-byte record would fit in a buffer of size 56 —
yet the scanner raises the fatal error instead of rewinding, because no
record was completed earlier in that pass (`counter == 0`). -/
theorem C2_counterexample :
    pyFind (pySlice scanDemoFile 0 56) startTag 0 = some 9 ∧
    pyFind (pySlice scanDemoFile 0 56) endTag 9 = none ∧
    scanDemoRecord.length ≤ 56 ∧
    scanEntries scanDemoFile 56 = some (.error ()) := by
  refine ⟨by rfl, by rfl, by decide, by rfl⟩

/-- C2 (amended): when the scanner finds a start tag whose end tag lies
beyond the loaded buffer, it rewinds the file cursor to the start tag's
absolute offset (`base + bp`) and refills — rather than raising the fatal
error — precisely when at least one complete record was already found in the
same buffer pass (`counter > 0`); with `counter = 0` the fatal `ValueError`
is raised even if the record would fit in a buffer of size `B`. -/
theorem C2_rewind_vs_fatal (buffer : List Char) (base fuel bp fp : Nat)
    (acc : List (List Char)) :
    (∀ c, 0 < c → pyFind buffer endTag bp = none →
      scanPassAux buffer base (fuel + 1) (some bp) fp c acc =
        some (.ok (acc, base + bp))) ∧
    (pyFind buffer endTag bp = none →
      scanPassAux buffer base (fuel + 1) (some bp) fp 0 acc = some (.error ())) := by
  constructor
  · intro c hc h
    exact scanPassAux_rewind h (by omega)
  · intro h
    simp [scanPassAux, h]

theorem C2_rewind_vs_fatal_witness :
    scanPassAux (pySlice dupDemoFile 0 90) 0 5 (some 83) 90 1
      [pySlice dupDemoFile 9 83] =
      some (.ok ([pySlice dupDemoFile 9 83], 0 + 83)) ∧
    scanPassAux (pySlice dupDemoFile 0 90) 0 5 (some 83) 90 0 [] =
      some (.error ()) :=
  ⟨(C2_rewind_vs_fatal (pySlice dupDemoFile 0 90) 0 4 83 90
      [pySlice dupDemoFile 9 83]).1 1 (by omega) (by rfl),
   (C2_rewind_vs_fatal (pySlice dupDemoFile 0 90) 0 4 83 90 []).2 (by rfl)⟩

